import Mathlib

/-!
Verification of the glyphsLib plist-like serialization core
(Lib/glyphsLib/parser.py): the escape codec shared by `Parser` and
`Writer`, the recursive-descent `Parser`, the normalizing `Writer`, and
the `dump` entry point.

Strings are modelled as `List Char` (Python unicode strings are sequences
of code points; Lean `Char` is a unicode scalar value, which covers every
value this code manipulates).  Regular expressions from the source are
translated into recursive functions on `List Char`; each translation is
annotated with the regex it embeds.
-/

namespace GlyphsLib

/-- The whitespace class used by Python's `\s` (unicode mode) and
`str.strip()`, restricted to the code points these can ever see here:
ASCII whitespace, the unicode file/group/record/unit separators, NEL,
NBSP and the Zs space characters. -/
def pySpace (c : Char) : Bool :=
  c.toNat = 0x20 || c.toNat = 0x9 || c.toNat = 0xa || c.toNat = 0xd ||
  c.toNat = 0xb || c.toNat = 0xc ||
  (0x1c ≤ c.toNat && c.toNat ≤ 0x1f) ||
  c.toNat = 0x85 || c.toNat = 0xa0 || c.toNat = 0x1680 ||
  (0x2000 ≤ c.toNat && c.toNat ≤ 0x200a) ||
  c.toNat = 0x2028 || c.toNat = 0x2029 || c.toNat = 0x202f ||
  c.toNat = 0x205f || c.toNat = 0x3000

/-- Digits `[0-9]`. -/
def isDigitC (c : Char) : Bool := '0' ≤ c && c ≤ '9'

/-- Octal digits `[0-7]`. -/
def isOctC (c : Char) : Bool := '0' ≤ c && c ≤ '7'

/-- Hex digits `[0-9a-fA-F]`. -/
def isHexC (c : Char) : Bool :=
  isDigitC c || ('a' ≤ c && c ≤ 'f') || ('A' ≤ c && c ≤ 'F')

/-- ASCII letters `[a-zA-Z]`. -/
def isAlphaC (c : Char) : Bool := ('a' ≤ c && c ≤ 'z') || ('A' ≤ c && c ≤ 'Z')

/-- The bare-token character class of `Parser.value_re`:
`[-_./$A-Za-z0-9]`. -/
def isBareChar (c : Char) : Bool :=
  c = '-' || c = '_' || c = '.' || c = '/' || c = '$' ||
  isAlphaC c || isDigitC c

/-! ### Escape codec: encoding (`Writer._escape_re` / `_escape_fn`) -/

/-- The octal digit character for `n < 8`. -/
def octDigitChar (n : Nat) : Char := Char.ofNat (48 + n)

/-- The uppercase hex digit character for `n < 16` (as produced by
Python's `%X` format). -/
def hexDigitChar (n : Nat) : Char :=
  if n < 10 then Char.ofNat (48 + n) else Char.ofNat (55 + n)

/-- Fueled body of `hexRevDigits`: fuel `v` always suffices, since `v`
has at most `v` hex digits. -/
def hexRevDigitsF : Nat → Nat → List Char
  | 0, _ => []
  | fuel + 1, v =>
    if v = 0 then [] else hexDigitChar (v % 16) :: hexRevDigitsF fuel (v / 16)

/-- Hex digits of `v`, least significant first (empty for `0`). -/
def hexRevDigits (v : Nat) : List Char := hexRevDigitsF v v

/-- Python `'%04X' % v`: minimal uppercase hex digits of `v`,
left-padded with the digit 0 to at least four characters. -/
def hex04X (v : Nat) : List Char :=
  let ds := if v = 0 then ['0'] else (hexRevDigits v).reverse
  List.replicate (4 - ds.length) '0' ++ ds

/-- Python `'%03o' % v`, for the values `v < 0x20` the writer feeds it:
exactly three octal digits. -/
def oct03 (v : Nat) : List Char :=
  [octDigitChar (v / 64), octDigitChar (v / 8 % 8), octDigitChar (v % 8)]

/-- One step of `Writer._escape_re.sub(Writer._escape_fn, text)`.  The
regex `([^ -~\u0009])|"` matches single characters: group 1 is
any character outside printable ASCII other than TAB (escaped as octal
below 0x20, else as a `\U` hex form), and otherwise the matched `"` is
escaped as a backslash-quote pair. -/
def escChar (c : Char) : List Char :=
  if !(0x20 ≤ c.toNat && c.toNat ≤ 0x7e) && c ≠ '\t' then
    if c.toNat < 0x20 then '\\' :: oct03 c.toNat
    else '\\' :: 'U' :: hex04X c.toNat
  else if c = '"' then ['\\', '"']
  else [c]

/-- `Writer._escape_re.sub(Writer._escape_fn, text)`: every character is
replaced independently. -/
def escData : List Char → List Char
  | [] => []
  | c :: t => escChar c ++ escData t

/-! ### The symbol regex `Writer._sym_re`:
`^(?:-?\.[0-9]+|-?[0-9]+\.?[0-9]*|[_a-zA-Z0-9/\.][_a-zA-Z0-9\.]*)$`
(the escaped data it is applied to never contains a newline, so the `$`
anchor is plain end-of-string). -/

/-- Consume the optional leading `-?` of the numeric alternatives. -/
def stripNeg : List Char → List Char
  | [] => []
  | c :: t => if c = '-' then t else c :: t

/-- Alternative 1: `-?\.[0-9]+`. -/
def symAltA (l : List Char) : Bool :=
  match stripNeg l with
  | c :: ds => c = '.' && !ds.isEmpty && ds.all isDigitC
  | [] => false

/-- Full match of `\.?[0-9]*` — the optional-fraction tail of
alternative 2. -/
def fracTail : List Char → Bool
  | [] => true
  | c :: r2 => c = '.' && r2.all isDigitC

/-- Alternative 2: `-?[0-9]+\.?[0-9]*`. -/
def symAltB (l : List Char) : Bool :=
  !((stripNeg l).takeWhile isDigitC).isEmpty &&
    fracTail ((stripNeg l).dropWhile isDigitC)

/-- First-character class of alternative 3: `[_a-zA-Z0-9/\.]`. -/
def isSymHead (c : Char) : Bool :=
  c = '_' || isAlphaC c || isDigitC c || c = '/' || c = '.'

/-- Tail-character class of alternative 3: `[_a-zA-Z0-9\.]` (note: no
forward slash). -/
def isSymTail (c : Char) : Bool :=
  c = '_' || isAlphaC c || isDigitC c || c = '.'

/-- Alternative 3: `[_a-zA-Z0-9/\.][_a-zA-Z0-9\.]*`. -/
def symAltC (l : List Char) : Bool :=
  match l with
  | [] => false
  | c :: t => isSymHead c && t.all isSymTail

/-- `Writer._sym_re.match(data)` as a full-string test. -/
def symMatch (l : List Char) : Bool := symAltA l || symAltB l || symAltC l

/-- `Writer.escape_text`: escape, then leave the data bare when it looks
like a symbol, else wrap it in double quotes. -/
def escape_text (s : List Char) : List Char :=
  if symMatch (escData s) then escData s
  else '"' :: (escData s ++ ['"'])

/-! ### Escape codec: decoding (`Parser._unescape_re` / `unescape_text`) -/

/-- Value of `int("0" ++ [o1, o2], 8)` for octal digit characters. -/
def octEscVal (o1 o2 : Char) : Nat := 8 * (o1.toNat - 48) + (o2.toNat - 48)

/-- Value of a single hex digit character. -/
def hexDigitVal (c : Char) : Nat :=
  if isDigitC c then c.toNat - 48
  else if 'a' ≤ c && c ≤ 'f' then c.toNat - 87
  else c.toNat - 55

/-- Value of `int([h1, h2, h3, h4], 16)`. -/
def hexEscVal (h1 h2 h3 h4 : Char) : Nat :=
  ((hexDigitVal h1 * 16 + hexDigitVal h2) * 16 + hexDigitVal h3) * 16 +
    hexDigitVal h4

/-- Fueled body of `unescSub` below; every step consumes at least one
input character, so fuel equal to the input length never runs out (at
fuel 0 the remaining input is empty and is returned as is). -/
def unescSubF : Nat → List Char → List Char
  | 0, l => l
  | fuel + 1, l =>
    match l with
    | '\\' :: '0' :: o1 :: o2 :: t =>
      if isOctC o1 && isOctC o2 then
        Char.ofNat (octEscVal o1 o2) :: unescSubF fuel t
      else '\\' :: unescSubF fuel ('0' :: o1 :: o2 :: t)
    | '\\' :: 'U' :: h1 :: h2 :: h3 :: h4 :: t =>
      if isHexC h1 && isHexC h2 && isHexC h3 && isHexC h4 then
        Char.ofNat (hexEscVal h1 h2 h3 h4) :: unescSubF fuel t
      else '\\' :: unescSubF fuel ('U' :: h1 :: h2 :: h3 :: h4 :: t)
    | c :: t => c :: unescSubF fuel t
    | [] => []

/-- `Parser._unescape_re.sub(Parser._unescape_fn, text)`: the regex
`(\\0[0-7]{2})|(\\U[0-9a-fA-F]{4})` is replaced left to right by the
character it denotes; any other position (including a backslash that
starts neither form) is passed through and scanning resumes one
character later. -/
def unescSub (l : List Char) : List Char := unescSubF l.length l

/-- Fueled body of `replaceQ` below; fuel equal to the input length
never runs out. -/
def replaceQF : Nat → List Char → List Char
  | 0, l => l
  | fuel + 1, l =>
    match l with
    | '\\' :: '"' :: t => '"' :: replaceQF fuel t
    | c :: t => c :: replaceQF fuel t
    | [] => []

/-- Python `text.replace('\\"', '"')`: left-to-right, non-overlapping. -/
def replaceQ (l : List Char) : List Char := replaceQF l.length l

/-- `Parser.unescape_text`: strip the double quotes off a quoted value,
reduce inner backslash-quote pairs, then run the escape decode.  The
source asserts that a value starting with a quote also ends with one and
indexes a non-empty string; inputs violating that raise in Python and
are `none` here. -/
def unescape_text (l : List Char) : Option (List Char) :=
  match l with
  | [] => none
  | c :: t =>
    if c = '"' then
      if (c :: t).getLast? = some '"' then
        some (unescSub (replaceQ t.dropLast))
      else none
    else some (unescSub (c :: t))

/-! ### The generic Node tree (§3 of the spec): Python dicts become
ordered pair lists, Python lists become node lists, scalars are decoded
strings. -/

mutual

inductive Node : Type where
  | scalar (s : List Char) : Node
  | seq (l : NodeList) : Node
  | dict (m : PairList) : Node

inductive NodeList : Type where
  | nil : NodeList
  | cons (head : Node) (tail : NodeList) : NodeList

inductive PairList : Type where
  | nil : PairList
  | cons (key : List Char) (val : Node) (tail : PairList) : PairList

end

deriving instance DecidableEq for Node
deriving instance DecidableEq for NodeList
deriving instance DecidableEq for PairList

/-- Append an element at the end of a node list (`res.append(list_item)`). -/
def NodeList.snoc : NodeList → Node → NodeList
  | .nil, v => .cons v .nil
  | .cons h t, v => .cons h (t.snoc v)

/-- `collections.OrderedDict` assignment `res[name] = value`: an existing
key keeps its position and gets the new value; a new key is appended. -/
def odInsert : PairList → List Char → Node → PairList
  | .nil, k, v => .cons k v .nil
  | .cons k' v' t, k, v =>
    if k' = k then .cons k' v t else .cons k' v' (odInsert t k v)

/-- The keys of a pair list, in order. -/
def keyList : PairList → List (List Char)
  | .nil => []
  | .cons k _ t => k :: keyList t

/-- The value bound to a key, if present (first binding wins, but a
parsed pair list never holds a key twice). -/
def lookupKey : PairList → List Char → Option Node
  | .nil, _ => none
  | .cons k' v t, k => if k' = k then some v else lookupKey t k

/-! ### Writer (`Writer._write` / `_write_dict` / `_write_list` /
`_write_atom`).  `ind` is the constructor argument `indent`, `cur` the
running `curindent`; `esc` is the `escape` flag; the `sort_keys` branch
sorts keys with Python's `sorted` (lexicographic by code point, modelled
below by insertion sort, which is stable like Python's sort). -/

/-- Code-point lexicographic `≤` on strings, as Python compares `str`. -/
def lexLe : List Char → List Char → Bool
  | [], _ => true
  | _ :: _, [] => false
  | a :: s, b :: t =>
    if a.toNat < b.toNat then true
    else if b.toNat < a.toNat then false
    else lexLe s t

/-- Insert a pair before the first strictly greater key. -/
def sortedInsertPair (k : List Char) (v : Node) : PairList → PairList
  | .nil => .cons k v .nil
  | .cons k' v' t =>
    if lexLe k k' && !(k = k') then .cons k v (.cons k' v' t)
    else .cons k' v' (sortedInsertPair k v t)

/-- Stable sort of the pairs by key (`sorted(data.keys())`). -/
def sortPairs : PairList → PairList
  | .nil => .nil
  | .cons k v t => sortedInsertPair k v (sortPairs t)

/-- The indentation padding `' ' * curindent`. -/
def pad (n : Nat) : List Char := List.replicate n ' '

/-- `Writer._write_atom`. -/
def wAtom (esc : Bool) (s : List Char) : List Char :=
  if esc then escape_text s else s

mutual

/-- `Writer._write`: dispatch on the node kind (with `sort_keys` already
applied to every dict by `sortTree` below, see `write`). -/
def wNode (ind cur : Nat) (esc : Bool) : Node → List Char
  | .scalar s => wAtom esc s
  | .dict m =>
    '{' :: '\n' :: (wPairs ind (cur + ind) esc m ++ (pad cur ++ ['}']))
  | .seq l =>
    '(' :: (wItems ind (cur + ind) esc true l ++ ('\n' :: (pad cur ++ [')'])))

/-- The pair loop of `Writer._write_dict`: for every pair, including the
last, `pad`, key, ` = `, value, `;`, newline. -/
def wPairs (ind cur : Nat) (esc : Bool) : PairList → List Char
  | .nil => []
  | .cons k v t =>
    pad cur ++ wAtom esc k ++ (' ' :: '=' :: ' ' :: wNode ind cur esc v) ++
      (';' :: '\n' :: wPairs ind cur esc t)

/-- The element loop of `Writer._write_list`: newline (preceded by a
comma except before the first element), `pad`, element. -/
def wItems (ind cur : Nat) (esc : Bool) : Bool → NodeList → List Char
  | _, .nil => []
  | first, .cons v t =>
    (if first then ['\n'] else [',', '\n']) ++ pad cur ++
      wNode ind cur esc v ++ wItems ind cur esc false t

end

mutual

/-- Sort every dict of the tree by key, bottom up.  The source applies
`sorted(data.keys())` inside each `_write_dict` call; since sorting only
permutes the pairs of the dict at hand, sorting every dict up front and
then walking the tree emits the same text. -/
def sortTree : Node → Node
  | .scalar s => .scalar s
  | .seq l => .seq (sortTreeList l)
  | .dict m => .dict (sortPairs (sortTreePairs m))

/-- `sortTree` on every element. -/
def sortTreeList : NodeList → NodeList
  | .nil => .nil
  | .cons v t => .cons (sortTree v) (sortTreeList t)

/-- `sortTree` on every value. -/
def sortTreePairs : PairList → PairList
  | .nil => .nil
  | .cons k v t => .cons k (sortTree v) (sortTreePairs t)

end

/-- `Writer.write`: reset `curindent`, serialize, append one newline. -/
def write (ind : Nat) (esc sort : Bool) (data : Node) : List Char :=
  wNode ind 0 esc (if sort then sortTree data else data) ++ ['\n']

/-- `Writer.write` with the constructor's default options
(`indent=0, sort_keys=False, escape=True`), as `dumps` uses it. -/
def serialize (data : Node) : List Char := write 0 true false data

/-! ### Parser.  Positions are character offsets into the full text, as
in the source; every matcher implements one of the compiled regexes by
skipping `\s*` greedily and then testing the token at that point. -/

/-- The parse failures of `Parser._fail`, by message, with the offset
`i` passed there.  `outOfFuel` is a model artifact: the recursion fuel
used below (three units per input character) never runs out on the
recursive descent, which consumes at least one character for every three
nested calls.  `quoteAssert` models the `assert` in `unescape_text`,
unreachable from tokens produced by the tokenizer. -/
inductive PErr : Type where
  | unexpectedContent (i : Nat)
  | unexpectedDictContent (i : Nat)
  | missingDictDelimiter (i : Nat)
  | missingListDelimiter (i : Nat)
  | unexpectedTrailingContent (i : Nat)
  | quoteAssert (i : Nat)
  | outOfFuel
deriving DecidableEq

/-- Decidable equality on `Except`, for evaluating parse results on
concrete inputs. -/
instance {ε α : Type} [DecidableEq ε] [DecidableEq α] :
    DecidableEq (Except ε α) := fun a b =>
  match a, b with
  | .ok x, .ok y =>
    if h : x = y then .isTrue (by rw [h])
    else .isFalse (by intro c; injection c; contradiction)
  | .error x, .error y =>
    if h : x = y then .isTrue (by rw [h])
    else .isFalse (by intro c; injection c; contradiction)
  | .ok _, .error _ => .isFalse (by intro c; injection c)
  | .error _, .ok _ => .isFalse (by intro c; injection c)

/-- Length of the leading whitespace run (`\s*`). -/
def wsCount (l : List Char) : Nat := (l.takeWhile pySpace).length

/-- Match `\s*` followed by the literal character `c` (the regexes
`start_dict_re`, `end_dict_re`, `dict_delim_re`, `start_list_re`,
`end_list_re`, `list_delim_re` and the `\s*=` tail of `attr_re`);
returns the number of characters consumed. -/
def litAfterWs (c : Char) (l : List Char) : Option Nat :=
  match (l.drop (wsCount l)).head? with
  | some c' => if c' = c then some (wsCount l + 1) else none
  | none => none

/-- Position of the first quote not preceded by a backslash, scanning
the body after an opening quote: the lazy `.*?(?<!\\)"` of `value_re`.
`prev` is the character before the current head. -/
def findClose (prev : Char) : List Char → Option Nat
  | [] => none
  | c :: t =>
    if c = '"' && prev != '\\' then some 0
    else (findClose c t).map (· + 1)

/-- The token alternation `(".*?(?<!\\)"|[-_./$A-Za-z0-9]+)` of
`value_re`, at the current position: returns consumed length and the
matched token (group 1, quotes included). -/
def matchTok (l : List Char) : Option (Nat × List Char) :=
  if l.head? = some '"' then
    match findClose '"' l.tail with
    | some n => some (n + 2, '"' :: (l.tail.take n ++ ['"']))
    | none => none
  else
    if (l.takeWhile isBareChar).isEmpty then none
    else some ((l.takeWhile isBareChar).length, l.takeWhile isBareChar)

/-- `value_re` = `\s*` + token. -/
def matchValueTok (l : List Char) : Option (Nat × List Char) :=
  (matchTok (l.drop (wsCount l))).map (fun p => (wsCount l + p.1, p.2))

/-- Scanning for a closing quote of an `attr_re` key: the regex engine
extends the lazy `.*?` past a candidate closing quote whenever the
following `\s*=` fails there, so each candidate is tested and the scan
continues on failure.  Returns (body length, length consumed by
`\s*=` after the closing quote). -/
def findCloseAttr (prev : Char) : List Char → Option (Nat × Nat)
  | [] => none
  | c :: t =>
    if c = '"' && prev != '\\' then
      match litAfterWs '=' t with
      | some m => some (0, m)
      | none => (findCloseAttr c t).map (fun p => (p.1 + 1, p.2))
    else (findCloseAttr c t).map (fun p => (p.1 + 1, p.2))

/-- `attr_re` = `\s*` + token + `\s*=`: returns total consumed length
and the key token.  A bare token is maximal, since shortening it can
never make the mandatory `=` match (no bare character is `=` or
whitespace).  Helper `matchAttrBare` is the bare branch of `attr_re` at
`rest`, with `n` characters of whitespace already consumed; `matchAttr`
below it is the full regex. -/
def matchAttrBare (n : Nat) (rest : List Char) : Option (Nat × List Char) :=
  if (rest.takeWhile isBareChar).isEmpty then none
  else
    match litAfterWs '=' (rest.drop (rest.takeWhile isBareChar).length) with
    | some m =>
      some (n + (rest.takeWhile isBareChar).length + m,
        rest.takeWhile isBareChar)
    | none => none

def matchAttr (l : List Char) : Option (Nat × List Char) :=
  if (l.drop (wsCount l)).head? = some '"' then
    match findCloseAttr '"' (l.drop (wsCount l)).tail with
    | some (k, m) =>
      some (wsCount l + (k + 2) + m,
        '"' :: ((l.drop (wsCount l)).tail.take k ++ ['"']))
    | none => none
  else
    matchAttrBare (wsCount l) (l.drop (wsCount l))

/-- The control points of the recursive descent, giving a single
recursion over fuel that mirrors the mutually recursive source
functions: `value i` is an entry to `Parser._parse` at offset `i`,
`dictTop`/`listTop` are `_parse_dict`/`_parse_list` before their first
loop iteration, `dictLoop`/`listLoop` are iterations of those loops
with the accumulated container contents. -/
inductive PJob : Type where
  | value (i : Nat)
  | dictTop (i : Nat)
  | dictLoop (i : Nat) (acc : PairList)
  | listTop (i : Nat)
  | listLoop (i : Nat) (acc : NodeList)

/-- The recursive descent of `Parser._parse` / `_parse_dict` /
`_parse_list` over text `t`:

* `value i`: dispatch on `start_dict_re`, `start_list_re`, `value_re`
  at offset `i`, as in `_parse`;
* `dictTop i`: the dict loop is skipped when `end_dict_re` matches at
  once;
* `dictLoop i acc`: one iteration of the `_parse_dict` loop —
  `attr_re`, value, `dict_delim_re`, then the loop-bottom
  `end_dict_re` test;
* `listTop i`: the list loop is skipped when `end_list_re` matches;
* `listLoop i acc`: one iteration of the `_parse_list` loop — an
  element, then `end_list_re`, and `list_delim_re` when the list goes
  on.  After a delimiter the next iteration parses an element directly,
  without an end test, so a trailing comma fails inside `_parse`. -/
def parseStep (t : List Char) : Nat → PJob → Except PErr (Node × Nat)
  | 0, _ => .error .outOfFuel
  | fuel + 1, job =>
    match job with
    | .value i =>
      match litAfterWs '{' (t.drop i) with
      | some n => parseStep t fuel (.dictTop (i + n))
      | none =>
        match litAfterWs '(' (t.drop i) with
        | some n => parseStep t fuel (.listTop (i + n))
        | none =>
          match matchValueTok (t.drop i) with
          | some (n, tok) =>
            match unescape_text tok with
            | some s => .ok (.scalar s, i + n)
            | none => .error (.quoteAssert i)
          | none => .error (.unexpectedContent i)
    | .dictTop i =>
      match litAfterWs '}' (t.drop i) with
      | some n => .ok (.dict .nil, i + n)
      | none => parseStep t fuel (.dictLoop i .nil)
    | .dictLoop i acc =>
      match matchAttr (t.drop i) with
      | none => .error (.unexpectedDictContent i)
      | some (n, tok) =>
        match unescape_text tok with
        | none => .error (.quoteAssert i)
        | some key =>
          match parseStep t fuel (.value (i + n)) with
          | .error e => .error e
          | .ok (v, i2) =>
            match litAfterWs ';' (t.drop i2) with
            | none => .error (.missingDictDelimiter i2)
            | some m =>
              match litAfterWs '}' (t.drop (i2 + m)) with
              | some e => .ok (.dict (odInsert acc key v), i2 + m + e)
              | none => parseStep t fuel (.dictLoop (i2 + m) (odInsert acc key v))
    | .listTop i =>
      match litAfterWs ')' (t.drop i) with
      | some n => .ok (.seq .nil, i + n)
      | none => parseStep t fuel (.listLoop i .nil)
    | .listLoop i acc =>
      match parseStep t fuel (.value i) with
      | .error e => .error e
      | .ok (v, i1) =>
        match litAfterWs ')' (t.drop i1) with
        | some n => .ok (.seq (acc.snoc v), i1 + n)
        | none =>
          match litAfterWs ',' (t.drop i1) with
          | none => .error (.missingListDelimiter i1)
          | some m => parseStep t fuel (.listLoop (i1 + m) (acc.snoc v))

/-- `Parser._parse` at offset `i`. -/
def parseValue (fuel : Nat) (t : List Char) (i : Nat) :
    Except PErr (Node × Nat) :=
  parseStep t fuel (.value i)

/-- Python `str.strip()`: drop whitespace from both ends. -/
def pyStrip (l : List Char) : List Char :=
  ((l.dropWhile pySpace).reverse.dropWhile pySpace).reverse

/-- `Parser.parse`: one root value, then `text[i:].strip()` must be
empty.  The fuel bound of three units per character covers the deepest
possible call chain (each `_parse` entry consumes a character before the
next three nested calls). -/
def parse (t : List Char) : Except PErr Node :=
  match parseValue (3 * (t.length + 1)) t 0 with
  | .error e => .error e
  | .ok (v, i) =>
    if pyStrip (t.drop i) = [] then .ok v
    else .error (.unexpectedTrailingContent i)

/-! ### The quoting pattern of claim C3, written from the spec's words:
"an optional leading `-`, then either a decimal number (with optional
fractional part) or an identifier composed of letters, digits,
underscore, forward-slash, or period, starting with a
letter/digit/underscore/slash". -/

/-- The claim's decimal-number pattern (an optional fractional part
introduced by a period). -/
def specNumC3 (l : List Char) : Bool :=
  !(l.takeWhile isDigitC).isEmpty &&
    ((l.dropWhile isDigitC).isEmpty ||
      match l.dropWhile isDigitC with
      | c :: r2 => c = '.' && !r2.isEmpty && r2.all isDigitC
      | [] => false)

/-- The claim's identifier pattern: letters, digits, underscore,
forward-slash, or period throughout, starting with a letter, digit,
underscore, or slash (not a period). -/
def specIdentC3 (l : List Char) : Bool :=
  match l with
  | [] => false
  | c :: t =>
    (c = '_' || c = '/' || isAlphaC c || isDigitC c) &&
      t.all (fun d => d = '_' || d = '/' || d = '.' || isAlphaC d || isDigitC d)

/-- The full claim-C3 pattern: optional leading `-`, then number or
identifier. -/
def specSymC3 (l : List Char) : Bool :=
  specNumC3 (stripNeg l) || specIdentC3 (stripNeg l)

/-! ### The quoting pattern as the code actually has it (the amended
claim C3): after the optional leading `-` a decimal string — digits and
at most one period, with at least one digit — or, without any leading
`-`, an identifier whose FIRST character is a letter, digit, underscore,
slash, or period and whose REMAINING characters are letters, digits,
underscores, or periods (a slash can only be the first character). -/

/-- Decimal string: digits and at most one period, at least one digit. -/
def amendNum (l : List Char) : Bool :=
  !l.isEmpty && l.all (fun c => isDigitC c || c = '.') &&
    (l.filter (fun c => c = '.')).length ≤ 1 && l.any isDigitC

/-- Identifier: head may also be a slash or period, the tail may hold
periods but no slash. -/
def amendIdent (l : List Char) : Bool :=
  match l.head? with
  | none => false
  | some c =>
    (c = '_' || isAlphaC c || isDigitC c || c = '/' || c = '.') &&
      l.tail.all (fun d => d = '_' || isAlphaC d || isDigitC d || d = '.')

/-- The amended claim-C3 pattern. -/
def amendSym (l : List Char) : Bool :=
  amendNum (stripNeg l) || amendIdent l

/-! ### Test inputs used by the concrete claims -/

/-- The duplicate-key document of claim C4. -/
def dupKeyText : List Char := "\x7b a = 1; b = 2; a = 3; \x7d".toList

/-- The missing-semicolon document of claim C6. -/
def missingSemiText : List Char := "\x7b a = 1 \x7d".toList

/-- The trailing-comma document of claim C6. -/
def trailingCommaText : List Char := "(1, 2,)".toList

/-! ### Helper lemmas -/

theorem mem_of_mem_dropWhile {α : Type} {p : α → Bool} {l : List α} {x : α}
    (hx : x ∈ l.dropWhile p) : x ∈ l := by
  have h := List.takeWhile_append_dropWhile (p := p) (l := l)
  rw [← h]
  exact List.mem_append.mpr (Or.inr hx)

theorem pyStrip_eq_nil_iff (l : List Char) :
    pyStrip l = [] ↔ ∀ c ∈ l, pySpace c = true := by
  unfold pyStrip
  rw [List.reverse_eq_nil_iff, List.dropWhile_eq_nil_iff]
  constructor
  · intro h c hc
    have hsplit := List.takeWhile_append_dropWhile (p := pySpace) (l := l)
    have hmem : c ∈ l.takeWhile pySpace ++ l.dropWhile pySpace := by
      rw [hsplit]; exact hc
    rcases List.mem_append.mp hmem with h1 | h1
    · exact List.mem_takeWhile_imp h1
    · exact h c (List.mem_reverse.mpr h1)
  · intro h c hc
    exact h c (mem_of_mem_dropWhile (List.mem_reverse.mp hc))

theorem keyList_odInsert (k : List Char) (v : Node) :
    ∀ a : PairList,
      keyList (odInsert a k v) =
        if k ∈ keyList a then keyList a else keyList a ++ [k]
  | .nil => by simp [odInsert, keyList]
  | .cons k' v' t => by
    by_cases hk : k' = k
    · subst hk
      simp [odInsert, keyList]
    · simp only [odInsert, if_neg hk, keyList, keyList_odInsert k v t,
        List.mem_cons]
      have : ¬ k = k' := fun h => hk h.symm
      by_cases hmem : k ∈ keyList t
      · simp [hmem, this]
      · simp [hmem, this]

theorem lookupKey_odInsert_self (k : List Char) (v : Node) :
    ∀ a : PairList, lookupKey (odInsert a k v) k = some v
  | .nil => by simp [odInsert, lookupKey]
  | .cons k' v' t => by
    by_cases hk : k' = k
    · subst hk; simp [odInsert, lookupKey]
    · simp [odInsert, hk, lookupKey, lookupKey_odInsert_self k v t]

theorem lookupKey_odInsert_other (k : List Char) (v : Node) (k' : List Char)
    (hne : k' ≠ k) :
    ∀ a : PairList, lookupKey (odInsert a k v) k' = lookupKey a k'
  | .nil => by
    simp [odInsert, lookupKey, Ne.symm hne]
  | .cons k'' v'' t => by
    by_cases hk : k'' = k
    · subst hk
      simp [odInsert, lookupKey, Ne.symm hne]
    · simp [odInsert, hk, lookupKey, lookupKey_odInsert_other k v k' hne t]

/-! ### Stepping equations for the decode passes.  `unescSubF` and
`replaceQF` consume at least one character per fuel unit, so any fuel at
least the input length gives the same result; the `unescSub`/`replaceQ`
wrappers then satisfy the natural one-step equations. -/

theorem unescSubF_nil : ∀ f : Nat, unescSubF f [] = []
  | 0 => rfl
  | _ + 1 => rfl

theorem replaceQF_nil : ∀ f : Nat, replaceQF f [] = []
  | 0 => rfl
  | _ + 1 => rfl

theorem unescSubF_irrel :
    ∀ (f f' : Nat) (l : List Char), l.length ≤ f → l.length ≤ f' →
      unescSubF f l = unescSubF f' l
  | _, _, [], _, _ => by rw [unescSubF_nil, unescSubF_nil]
  | 0, _, _ :: _, h1, _ => by simp at h1
  | _ + 1, 0, _ :: _, _, h2 => by simp at h2
  | f + 1, f' + 1, c :: t, h1, h2 => by
    show unescSubF (f + 1) (c :: t) = unescSubF (f' + 1) (c :: t)
    simp only [List.length_cons] at h1 h2
    unfold unescSubF
    split
    · rename_i heq
      injection heq with hc heq2
      subst hc
      subst heq2
      simp only [List.length_cons] at h1 h2
      split
      · congr 1
        apply unescSubF_irrel <;> omega
      · congr 1
        apply unescSubF_irrel <;> (simp only [List.length_cons]; omega)
    · rename_i heq
      injection heq with hc heq2
      subst hc
      subst heq2
      simp only [List.length_cons] at h1 h2
      split
      · congr 1
        apply unescSubF_irrel <;> omega
      · congr 1
        apply unescSubF_irrel <;> (simp only [List.length_cons]; omega)
    · rename_i heq
      injection heq with hc ht
      subst hc
      subst ht
      congr 1
      apply unescSubF_irrel <;> omega
    · rfl

theorem replaceQF_irrel :
    ∀ (f f' : Nat) (l : List Char), l.length ≤ f → l.length ≤ f' →
      replaceQF f l = replaceQF f' l
  | _, _, [], _, _ => by rw [replaceQF_nil, replaceQF_nil]
  | 0, _, _ :: _, h1, _ => by simp at h1
  | _ + 1, 0, _ :: _, _, h2 => by simp at h2
  | f + 1, f' + 1, c :: t, h1, h2 => by
    show replaceQF (f + 1) (c :: t) = replaceQF (f' + 1) (c :: t)
    simp only [List.length_cons] at h1 h2
    unfold replaceQF
    split
    · rename_i heq
      injection heq with hc heq2
      subst hc
      subst heq2
      simp only [List.length_cons] at h1 h2
      congr 1
      apply replaceQF_irrel <;> omega
    · rename_i heq
      injection heq with hc ht
      subst hc
      subst ht
      congr 1
      apply replaceQF_irrel <;> omega
    · rfl

theorem unescSub_oct (o1 o2 : Char) (t : List Char)
    (h1 : isOctC o1 = true) (h2 : isOctC o2 = true) :
    unescSub ('\\' :: '0' :: o1 :: o2 :: t) =
      Char.ofNat (octEscVal o1 o2) :: unescSub t := by
  show (if (isOctC o1 && isOctC o2) = true then
      Char.ofNat (octEscVal o1 o2) :: unescSubF (t.length + 3) t
    else '\\' :: unescSubF (t.length + 3) ('0' :: o1 :: o2 :: t)) = _
  rw [if_pos (by rw [h1, h2]; rfl)]
  rw [unescSubF_irrel (t.length + 3) t.length t (by omega) (by omega)]
  rfl

theorem unescSub_hex (h1 h2 h3 h4 : Char) (t : List Char)
    (hh1 : isHexC h1 = true) (hh2 : isHexC h2 = true)
    (hh3 : isHexC h3 = true) (hh4 : isHexC h4 = true) :
    unescSub ('\\' :: 'U' :: h1 :: h2 :: h3 :: h4 :: t) =
      Char.ofNat (hexEscVal h1 h2 h3 h4) :: unescSub t := by
  show (if (isHexC h1 && isHexC h2 && isHexC h3 && isHexC h4) = true then
      Char.ofNat (hexEscVal h1 h2 h3 h4) :: unescSubF (t.length + 5) t
    else '\\' ::
      unescSubF (t.length + 5) ('U' :: h1 :: h2 :: h3 :: h4 :: t)) = _
  rw [if_pos (by rw [hh1, hh2, hh3, hh4]; rfl)]
  rw [unescSubF_irrel (t.length + 5) t.length t (by omega) (by omega)]
  rfl

theorem unescSub_cons_ne (c : Char) (t : List Char) (hc : ¬ c = '\\') :
    unescSub (c :: t) = c :: unescSub t := by
  show unescSubF (t.length + 1) (c :: t) = _
  unfold unescSubF
  split
  · rename_i heq
    injection heq with hc' _
    exact absurd hc' hc
  · rename_i heq
    injection heq with hc' _
    exact absurd hc' hc
  · rename_i heq
    injection heq with hc' ht
    subst hc'
    subst ht
    rfl
  · rename_i heq
    exact absurd heq (by simp)

theorem unescSub_backslash (t : List Char)
    (hoct : ∀ o1 o2 t2, t = '0' :: o1 :: o2 :: t2 →
      ¬ (isOctC o1 = true ∧ isOctC o2 = true))
    (hhex : ∀ h1 h2 h3 h4 t2, t = 'U' :: h1 :: h2 :: h3 :: h4 :: t2 →
      ¬ (isHexC h1 = true ∧ isHexC h2 = true ∧ isHexC h3 = true ∧
        isHexC h4 = true)) :
    unescSub ('\\' :: t) = '\\' :: unescSub t := by
  show unescSubF (t.length + 1) ('\\' :: t) = _
  unfold unescSubF
  split
  · rename_i heq
    injection heq with _ ht
    subst ht
    rw [if_neg (by
      intro hg
      rw [Bool.and_eq_true] at hg
      exact hoct _ _ _ rfl hg)]
    rfl
  · rename_i heq
    injection heq with _ ht
    subst ht
    rw [if_neg (by
      intro hg
      simp only [Bool.and_eq_true] at hg
      exact hhex _ _ _ _ _ rfl ⟨hg.1.1.1, hg.1.1.2, hg.1.2, hg.2⟩)]
    rfl
  · rename_i heq
    injection heq with hc' ht
    subst hc'
    subst ht
    rfl
  · rename_i heq
    exact absurd heq (by simp)

theorem unescSub_no_backslash :
    ∀ l : List Char, '\\' ∉ l → unescSub l = l
  | [], _ => rfl
  | c :: t, h => by
    have hc : ¬ c = '\\' := fun hc => h (by simp [hc])
    rw [unescSub_cons_ne c t hc,
      unescSub_no_backslash t (fun hm => h (by simp [hm]))]

theorem replaceQ_esc (t : List Char) :
    replaceQ ('\\' :: '"' :: t) = '"' :: replaceQ t := by
  show ('"' :: replaceQF (t.length + 1) t) = _
  rw [replaceQF_irrel (t.length + 1) t.length t (by omega) (by omega)]
  rfl

theorem replaceQ_cons_ne (c : Char) (t : List Char) (hc : ¬ c = '\\') :
    replaceQ (c :: t) = c :: replaceQ t := by
  show replaceQF (t.length + 1) (c :: t) = _
  unfold replaceQF
  split
  · rename_i heq
    injection heq with hc' _
    exact absurd hc' hc
  · rename_i heq
    injection heq with hc' ht
    subst hc'
    subst ht
    rfl
  · rename_i heq
    exact absurd heq (by simp)

theorem replaceQ_bs_ne (c2 : Char) (t : List Char) (hc2 : ¬ c2 = '"') :
    replaceQ ('\\' :: c2 :: t) = '\\' :: replaceQ (c2 :: t) := by
  show replaceQF (t.length + 2) ('\\' :: c2 :: t) = _
  unfold replaceQF
  split
  · rename_i heq
    injection heq with _ heq2
    injection heq2 with hq _
    exact absurd hq hc2
  · rename_i heq
    injection heq with hc' ht
    subst hc'
    subst ht
    rfl
  · rename_i heq
    exact absurd heq (by simp)

/-! ### Characters and strings that survive the escape round trip:
no backslash (the writer never escapes one) and no code point above
U+FFFF (`%04X` would print five digits, of which the decoder eats
exactly four). -/

/-- A character the escape codec round-trips. -/
def goodChar (c : Char) : Bool := !(c == '\\') && decide (c.toNat ≤ 0xFFFF)

/-- A string the escape codec round-trips. -/
def goodStr (s : List Char) : Bool := s.all goodChar

theorem goodChar_spec {c : Char} (h : goodChar c = true) :
    ¬ c = '\\' ∧ c.toNat ≤ 0xFFFF := by
  unfold goodChar at h
  rw [Bool.and_eq_true] at h
  refine ⟨fun hc => ?_, of_decide_eq_true h.2⟩
  subst hc
  simp at h

/-- The per-character decode target: a quote was written as a
backslash-quote pair that stage one restores; every other character was
written by `escChar` and survives stage one untouched. -/
def repUnit (c : Char) : List Char := if c = '"' then ['"'] else escChar c

/-- `repUnit` over a whole string. -/
def flatRep : List Char → List Char
  | [] => []
  | c :: t => repUnit c ++ flatRep t

theorem toNat_ofNat_valid {n : Nat} (h : n < 0xd800) :
    (Char.ofNat n).toNat = n := by
  unfold Char.ofNat
  rw [dif_pos (Or.inl h)]
  rfl

theorem octDigitChar_isOct {n : Nat} (h : n < 8) :
    isOctC (octDigitChar n) = true := by
  interval_cases n <;> decide

theorem octDigitChar_ne_bs {n : Nat} (h : n < 8) :
    ¬ octDigitChar n = '\\' := by
  interval_cases n <;> decide

theorem octDigitChar_ne_q {n : Nat} (h : n < 8) :
    ¬ octDigitChar n = '"' := by
  interval_cases n <;> decide

theorem octEscVal_octDigitChar {a b : Nat} (ha : a < 8) (hb : b < 8) :
    octEscVal (octDigitChar a) (octDigitChar b) = 8 * a + b := by
  interval_cases a <;> interval_cases b <;> decide

theorem hexDigitChar_isHex {n : Nat} (h : n < 16) :
    isHexC (hexDigitChar n) = true := by
  interval_cases n <;> decide

theorem hexDigitChar_ne_bs {n : Nat} (h : n < 16) :
    ¬ hexDigitChar n = '\\' := by
  interval_cases n <;> decide

theorem hexDigitChar_ne_q {n : Nat} (h : n < 16) :
    ¬ hexDigitChar n = '"' := by
  interval_cases n <;> decide

theorem hexDigitVal_hexDigitChar {n : Nat} (h : n < 16) :
    hexDigitVal (hexDigitChar n) = n := by
  interval_cases n <;> decide

/-- The value of a least-significant-first hex digit list. -/
def valueRevHex : List Char → Nat
  | [] => 0
  | d :: t => hexDigitVal d + 16 * valueRevHex t

/-- The value of a most-significant-first hex digit list. -/
def valueMSB (ds : List Char) : Nat :=
  ds.foldl (fun a d => a * 16 + hexDigitVal d) 0

theorem hexRevDigitsF_value :
    ∀ (f v : Nat), v ≤ f → valueRevHex (hexRevDigitsF f v) = v
  | 0, v, h => by
    have : v = 0 := by omega
    subst this
    rfl
  | f + 1, v, h => by
    unfold hexRevDigitsF
    by_cases hv : v = 0
    · subst hv
      simp [valueRevHex]
    · rw [if_neg hv]
      have hdiv : v / 16 ≤ f := by
        have := Nat.div_lt_self (Nat.pos_of_ne_zero hv) (by omega : 1 < 16)
        omega
      rw [show valueRevHex (hexDigitChar (v % 16) :: hexRevDigitsF f (v / 16)) =
        hexDigitVal (hexDigitChar (v % 16)) +
          16 * valueRevHex (hexRevDigitsF f (v / 16)) from rfl]
      rw [hexRevDigitsF_value f (v / 16) hdiv,
        hexDigitVal_hexDigitChar (Nat.mod_lt v (by omega))]
      omega

theorem hexRevDigitsF_mem :
    ∀ (f v : Nat) (c : Char), c ∈ hexRevDigitsF f v →
      isHexC c = true ∧ ¬ c = '\\' ∧ ¬ c = '"'
  | 0, v, c, h => by simp [hexRevDigitsF] at h
  | f + 1, v, c, h => by
    unfold hexRevDigitsF at h
    by_cases hv : v = 0
    · rw [if_pos hv] at h
      simp at h
    · rw [if_neg hv] at h
      rcases List.mem_cons.mp h with h1 | h1
      · subst h1
        have hlt : v % 16 < 16 := Nat.mod_lt v (by omega)
        exact ⟨hexDigitChar_isHex hlt, hexDigitChar_ne_bs hlt,
          hexDigitChar_ne_q hlt⟩
      · exact hexRevDigitsF_mem f (v / 16) c h1

theorem hexRevDigitsF_len :
    ∀ (f v k : Nat), v < 16 ^ k → (hexRevDigitsF f v).length ≤ k
  | 0, _, _, _ => by simp [hexRevDigitsF]
  | f + 1, v, k, h => by
    unfold hexRevDigitsF
    by_cases hv : v = 0
    · simp [hv]
    · rw [if_neg hv]
      cases k with
      | zero =>
        simp at h
        omega
      | succ k' =>
        have hdiv : v / 16 < 16 ^ k' := by
          rw [Nat.div_lt_iff_lt_mul (by omega : 0 < 16)]
          calc v < 16 ^ (k' + 1) := h
          _ = 16 ^ k' * 16 := by rw [Nat.pow_succ]
        have := hexRevDigitsF_len f (v / 16) k' hdiv
        simp only [List.length_cons]
        omega

theorem valueMSB_replicate_zero (k : Nat) (ds : List Char) :
    valueMSB (List.replicate k '0' ++ ds) = valueMSB ds := by
  induction k with
  | zero => simp
  | succ k' ih =>
    rw [List.replicate_succ, List.cons_append]
    show valueMSB (List.replicate k' '0' ++ ds) = _
    exact ih

theorem foldl_hex_append (a : Nat) (l : List Char) (d : Char) :
    (l ++ [d]).foldl (fun a d => a * 16 + hexDigitVal d) a =
      (l.foldl (fun a d => a * 16 + hexDigitVal d) a) * 16 + hexDigitVal d := by
  rw [List.foldl_append]
  rfl

theorem valueMSB_reverse :
    ∀ ds : List Char, valueMSB ds.reverse = valueRevHex ds
  | [] => rfl
  | d :: t => by
    rw [List.reverse_cons]
    unfold valueMSB
    rw [foldl_hex_append]
    rw [show (t.reverse.foldl (fun a d => a * 16 + hexDigitVal d) 0) =
      valueMSB t.reverse from rfl]
    rw [valueMSB_reverse t,
      show valueRevHex (d :: t) = hexDigitVal d + 16 * valueRevHex t from rfl]
    omega

theorem list_len_four {α : Type} :
    ∀ p : List α, p.length = 4 → ∃ a b c d, p = [a, b, c, d]
  | [a, b, c, d], _ => ⟨a, b, c, d, rfl⟩
  | [], h => by simp at h
  | [_], h => by simp at h
  | [_, _], h => by simp at h
  | [_, _, _], h => by simp at h
  | _ :: _ :: _ :: _ :: _ :: _, h => by simp at h

theorem hex04X_spec {v : Nat} (h1 : 1 ≤ v) (h2 : v ≤ 0xFFFF) :
    ∃ a b c d, hex04X v = [a, b, c, d] ∧ hexEscVal a b c d = v ∧
      isHexC a = true ∧ isHexC b = true ∧ isHexC c = true ∧
      isHexC d = true ∧
      (∀ x ∈ hex04X v, ¬ x = '\\' ∧ ¬ x = '"') := by
  have hv0 : ¬ v = 0 := by omega
  have hlen : (hexRevDigits v).length ≤ 4 :=
    hexRevDigitsF_len v v 4 (by norm_num; omega)
  have hval : valueRevHex (hexRevDigits v) = v :=
    hexRevDigitsF_value v v (Nat.le_refl v)
  have hmem : ∀ c ∈ hexRevDigits v,
      isHexC c = true ∧ ¬ c = '\\' ∧ ¬ c = '"' :=
    fun c hc => hexRevDigitsF_mem v v c hc
  have hx : hex04X v =
      List.replicate (4 - (hexRevDigits v).reverse.length) '0' ++
        (hexRevDigits v).reverse := by
    unfold hex04X
    rw [if_neg hv0]
  have hplen : (hex04X v).length = 4 := by
    rw [hx]
    simp only [List.length_append, List.length_replicate,
      List.length_reverse]
    omega
  obtain ⟨a, b, c, d, habcd⟩ := list_len_four (hex04X v) hplen
  have hunits : ∀ x ∈ hex04X v,
      isHexC x = true ∧ ¬ x = '\\' ∧ ¬ x = '"' := by
    intro x hxmem
    rw [hx] at hxmem
    rcases List.mem_append.mp hxmem with hrep | hrev
    · have := List.eq_of_mem_replicate hrep
      subst this
      exact ⟨by decide, by decide, by decide⟩
    · exact hmem x (List.mem_reverse.mp hrev)
  have hvmsb : valueMSB (hex04X v) = v := by
    rw [hx, valueMSB_replicate_zero, valueMSB_reverse, hval]
  have hvesc : hexEscVal a b c d = v := by
    rw [← hvmsb, habcd]
    show hexEscVal a b c d = valueMSB [a, b, c, d]
    unfold valueMSB hexEscVal
    simp [List.foldl]
  exact ⟨a, b, c, d, habcd, hvesc,
    (hunits a (by rw [habcd]; simp)).1,
    (hunits b (by rw [habcd]; simp)).1,
    (hunits c (by rw [habcd]; simp)).1,
    (hunits d (by rw [habcd]; simp)).1,
    fun x hxm => ⟨(hunits x hxm).2.1, (hunits x hxm).2.2⟩⟩

theorem escChar_quote : escChar '"' = ['\\', '"'] := by decide

theorem escChar_ctrl {c : Char} (hlt : c.toNat < 0x20) (ht : ¬ c = '\t') :
    escChar c =
      ['\\', '0', octDigitChar (c.toNat / 8 % 8), octDigitChar (c.toNat % 8)] := by
  have h1 : ¬ (0x20 ≤ c.toNat) := by omega
  unfold escChar
  rw [if_pos (by simp [h1, ht]), if_pos hlt]
  unfold oct03
  rw [show c.toNat / 64 = 0 by omega]
  rfl

theorem escChar_hi {c : Char} (hhi : 0x7f ≤ c.toNat) :
    escChar c = '\\' :: 'U' :: hex04X c.toNat := by
  have h1 : ¬ (c.toNat ≤ 0x7e) := by omega
  have ht : ¬ c = '\t' := by
    intro h
    subst h
    simp at hhi
  unfold escChar
  rw [if_pos (by simp [h1, ht]), if_neg (by omega)]

theorem escChar_plain {c : Char}
    (hrange : (0x20 ≤ c.toNat ∧ c.toNat ≤ 0x7e) ∨ c = '\t')
    (hq : ¬ c = '"') : escChar c = [c] := by
  unfold escChar
  rw [if_neg (by
    rcases hrange with ⟨ha, hb⟩ | htab
    · simp [ha, hb]
    · simp [htab]), if_neg hq]

theorem replaceQ_unit (c : Char) (rest : List Char) (hg : goodChar c = true) :
    replaceQ (escChar c ++ rest) = repUnit c ++ replaceQ rest := by
  obtain ⟨hbs, hle⟩ := goodChar_spec hg
  by_cases hq : c = '"'
  · subst hq
    rw [escChar_quote, repUnit, if_pos rfl]
    exact replaceQ_esc rest
  · rw [show repUnit c = escChar c from if_neg hq]
    by_cases hplain : (0x20 ≤ c.toNat ∧ c.toNat ≤ 0x7e) ∨ c = '\t'
    · rw [escChar_plain hplain hq]
      exact replaceQ_cons_ne c rest hbs
    · push_neg at hplain
      obtain ⟨hnr, htab⟩ := hplain
      by_cases hlt : c.toNat < 0x20
      · rw [escChar_ctrl hlt htab]
        show replaceQ ('\\' :: '0' :: _ :: _ :: rest) = _
        rw [replaceQ_bs_ne '0' _ (by decide),
          replaceQ_cons_ne '0' _ (by decide),
          replaceQ_cons_ne _ _ (octDigitChar_ne_bs (Nat.mod_lt _ (by omega))),
          replaceQ_cons_ne _ _ (octDigitChar_ne_bs (Nat.mod_lt _ (by omega)))]
        rfl
      · have hhi : 0x7f ≤ c.toNat := by
          have := hnr (by omega)
          omega
        rw [escChar_hi hhi]
        obtain ⟨a, b, c2, d, habcd, _, _, _, _, _, hprops⟩ :=
          hex04X_spec (v := c.toNat) (by omega) hle
        rw [habcd]
        have hma : ¬ a = '\\' := (hprops a (by rw [habcd]; simp)).1
        have hmb : ¬ b = '\\' := (hprops b (by rw [habcd]; simp)).1
        have hmc : ¬ c2 = '\\' := (hprops c2 (by rw [habcd]; simp)).1
        have hmd : ¬ d = '\\' := (hprops d (by rw [habcd]; simp)).1
        show replaceQ ('\\' :: 'U' :: a :: b :: c2 :: d :: rest) = _
        rw [replaceQ_bs_ne 'U' _ (by decide),
          replaceQ_cons_ne 'U' _ (by decide),
          replaceQ_cons_ne a _ hma, replaceQ_cons_ne b _ hmb,
          replaceQ_cons_ne c2 _ hmc, replaceQ_cons_ne d _ hmd]
        rfl

theorem decode_unit (c : Char) (rest : List Char) (hg : goodChar c = true) :
    unescSub (repUnit c ++ rest) = c :: unescSub rest := by
  obtain ⟨hbs, hle⟩ := goodChar_spec hg
  by_cases hq : c = '"'
  · subst hq
    rw [repUnit, if_pos rfl]
    exact unescSub_cons_ne '"' rest (by decide)
  · rw [show repUnit c = escChar c from if_neg hq]
    by_cases hplain : (0x20 ≤ c.toNat ∧ c.toNat ≤ 0x7e) ∨ c = '\t'
    · rw [escChar_plain hplain hq]
      exact unescSub_cons_ne c rest hbs
    · push_neg at hplain
      obtain ⟨hnr, htab⟩ := hplain
      by_cases hlt : c.toNat < 0x20
      · rw [escChar_ctrl hlt htab]
        show unescSub ('\\' :: '0' :: _ :: _ :: rest) = _
        rw [unescSub_oct _ _ rest
          (octDigitChar_isOct (Nat.mod_lt _ (by omega)))
          (octDigitChar_isOct (Nat.mod_lt _ (by omega)))]
        rw [octEscVal_octDigitChar (Nat.mod_lt _ (by omega))
          (Nat.mod_lt _ (by omega))]
        rw [show 8 * (c.toNat / 8 % 8) + c.toNat % 8 = c.toNat by omega,
          Char.ofNat_toNat]
      · have hhi : 0x7f ≤ c.toNat := by
          have := hnr (by omega)
          omega
        rw [escChar_hi hhi]
        obtain ⟨a, b, c2, d, habcd, hval, hha, hhb, hhc, hhd, _⟩ :=
          hex04X_spec (v := c.toNat) (by omega) hle
        rw [habcd]
        show unescSub ('\\' :: 'U' :: a :: b :: c2 :: d :: rest) = _
        rw [unescSub_hex a b c2 d rest hha hhb hhc hhd, hval,
          Char.ofNat_toNat]

theorem replaceQ_escData :
    ∀ s : List Char, goodStr s = true → replaceQ (escData s) = flatRep s
  | [], _ => rfl
  | c :: t, hg => by
    have hgc : goodChar c = true :=
      List.all_eq_true.mp hg c (by simp)
    have hgt : goodStr t = true := by
      rw [goodStr, List.all_eq_true]
      intro x hx
      exact List.all_eq_true.mp hg x (by simp [hx])
    show replaceQ (escChar c ++ escData t) = repUnit c ++ flatRep t
    rw [replaceQ_unit c (escData t) hgc, replaceQ_escData t hgt]

theorem unescSub_flatRep :
    ∀ s : List Char, goodStr s = true → unescSub (flatRep s) = s
  | [], _ => rfl
  | c :: t, hg => by
    have hgc : goodChar c = true :=
      List.all_eq_true.mp hg c (by simp)
    have hgt : goodStr t = true := by
      rw [goodStr, List.all_eq_true]
      intro x hx
      exact List.all_eq_true.mp hg x (by simp [hx])
    show unescSub (repUnit c ++ flatRep t) = c :: t
    rw [decode_unit c (flatRep t) hgc, unescSub_flatRep t hgt]

/-- The unquoted branch of `unescape_text`. -/
theorem unescape_text_unquoted (c : Char) (t : List Char) (hc : ¬ c = '"') :
    unescape_text (c :: t) = some (unescSub (c :: t)) := by
  simp [unescape_text, hc]

/-- The quoted branch of `unescape_text` on a well-delimited literal. -/
theorem unescape_text_quoted (b : List Char) :
    unescape_text ('"' :: (b ++ ['"'])) = some (unescSub (replaceQ b)) := by
  have hlast : ('"' :: (b ++ ['"'])).getLast? = some '"' := by
    rw [show ('"' :: (b ++ ['"'])) = ('"' :: b) ++ ['"'] by simp,
      List.getLast?_concat]
  simp only [unescape_text, if_pos rfl, hlast, List.dropLast_concat]
  rfl

/-- `escChar` either keeps the character or introduces a backslash. -/
theorem escChar_plain_or_bs (c : Char) :
    escChar c = [c] ∨ '\\' ∈ escChar c := by
  unfold escChar
  split
  · split
    · exact Or.inr (by simp)
    · exact Or.inr (by simp)
  · split
    · exact Or.inr (by simp)
    · exact Or.inl rfl

theorem escData_no_bs_self :
    ∀ s : List Char, '\\' ∉ escData s → escData s = s
  | [], _ => rfl
  | c :: t, h => by
    have hsplit : escData (c :: t) = escChar c ++ escData t := rfl
    rw [hsplit] at h ⊢
    have hc : escChar c = [c] := by
      rcases escChar_plain_or_bs c with h1 | h1
      · exact h1
      · exact absurd (List.mem_append.mpr (Or.inl h1)) h
    rw [hc, escData_no_bs_self t
      (fun hm => h (List.mem_append.mpr (Or.inr hm)))]
    rfl

/-! ### The symbol regex coincides with the amended C3 pattern -/

theorem isDigitC_ne_dot {c : Char} (h : isDigitC c = true) : ¬ c = '.' := by
  intro hc
  subst hc
  exact absurd h (by decide)

theorem filter_dot_nil_of_all_digit {t : List Char}
    (h : t.all isDigitC = true) : t.filter (fun c => c = '.') = [] := by
  rw [List.filter_eq_nil_iff]
  intro a ha
  exact fun hdot =>
    isDigitC_ne_dot (List.all_eq_true.mp h a ha) (by simpa using hdot)

theorem all_digit_of_charset_dotfree {t : List Char}
    (hcs : t.all (fun c => isDigitC c || c = '.') = true)
    (hft : t.filter (fun c => c = '.') = []) : t.all isDigitC = true := by
  rw [List.all_eq_true]
  intro a ha
  rcases Bool.or_eq_true_iff.mp (List.all_eq_true.mp hcs a ha) with h | h
  · exact h
  · exact absurd h (by
      have := List.filter_eq_nil_iff.mp hft a ha
      simpa using this)

theorem charset_of_all_digit {t : List Char} (h : t.all isDigitC = true) :
    t.all (fun c => isDigitC c || c = '.') = true := by
  rw [List.all_eq_true]
  intro a ha
  simp [List.all_eq_true.mp h a ha]

theorem filter_len_le_one_nil {t : List Char}
    (h : decide ((1 + (t.filter (fun c => c = '.')).length) ≤ 1) = true) :
    t.filter (fun c => c = '.') = [] := by
  have h' := of_decide_eq_true h
  cases hf : t.filter (fun c => c = '.') with
  | nil => rfl
  | cons _ _ =>
    rw [hf] at h'
    simp at h'

theorem fracTail_eq_charset :
    ∀ t : List Char,
      fracTail (t.dropWhile isDigitC) =
        (t.all (fun c => isDigitC c || c = '.') &&
          decide ((t.filter (fun c => c = '.')).length ≤ 1))
  | [] => rfl
  | d :: t' => by
    by_cases hd : isDigitC d = true
    · have hdot := isDigitC_ne_dot hd
      rw [List.dropWhile_cons, if_pos hd, fracTail_eq_charset t']
      simp [hd, hdot]
    · by_cases hdot : d = '.'
      · subst hdot
        rw [List.dropWhile_cons, if_neg (by decide)]
        have hL : fracTail ('.' :: t') = t'.all isDigitC := by
          simp [fracTail]
        rw [hL, Bool.eq_iff_iff]
        simp only [List.all_cons, List.filter_cons,
          if_pos (by decide : (('.' : Char) = '.') = true), List.length_cons,
          Bool.and_eq_true, Bool.or_eq_true]
        constructor
        · intro hall
          have hft := filter_dot_nil_of_all_digit hall
          refine ⟨⟨Or.inr rfl, charset_of_all_digit hall⟩, ?_⟩
          rw [hft]
          simp
        · rintro ⟨⟨_, hcs⟩, hlen⟩
          have hft : t'.filter (fun c => c = '.') = [] :=
            filter_len_le_one_nil (by simpa [Nat.add_comm] using hlen)
          exact all_digit_of_charset_dotfree hcs hft
      · rw [List.dropWhile_cons, if_neg hd]
        have hL : fracTail (d :: t') = false := by
          simp [fracTail, hdot]
        rw [hL, Bool.eq_iff_iff]
        simp [hd, hdot]

theorem any_eq_not_isEmpty {p : Char → Bool} :
    ∀ {t : List Char}, t.all p = true → t.any p = !t.isEmpty
  | [], _ => rfl
  | a :: t2, h => by
    have ha : p a = true := by
      have := List.all_eq_true.mp h a (by simp)
      simpa using this
    simp [ha]

theorem amendNum_dot_cons (t : List Char) :
    amendNum ('.' :: t) = (t.all isDigitC && !t.isEmpty) := by
  by_cases hall : t.all isDigitC = true
  · have hft := filter_dot_nil_of_all_digit hall
    have hany := any_eq_not_isEmpty (p := isDigitC) hall
    simp [amendNum, List.filter_cons, hft, charset_of_all_digit hall, hall,
      hany, show isDigitC '.' = false by decide]
  · have hallf : t.all isDigitC = false := Bool.eq_false_iff.mpr hall
    rw [hallf, Bool.false_and]
    by_cases hcs : t.all (fun c => isDigitC c || c = '.') = true
    · have hft : ¬ t.filter (fun c => c = '.') = [] := fun hft =>
        hall (all_digit_of_charset_dotfree hcs hft)
      have hge : 1 ≤ (t.filter (fun c => c = '.')).length := by
        cases hf : t.filter (fun c => c = '.') with
        | nil => exact absurd hf hft
        | cons _ _ => simp
      have hlen1 :
          (('.' :: t).filter (fun c => c = '.')).length =
            1 + (t.filter (fun c => c = '.')).length := by
        simp [List.filter_cons, Nat.add_comm]
      have hdec :
          decide ((('.' :: t).filter (fun c => c = '.')).length ≤ 1) = false := by
        rw [decide_eq_false_iff_not, hlen1]
        omega
      unfold amendNum
      rw [hdec]
      simp
    · have hcsf : (t.all fun c => isDigitC c || c = '.') = false :=
        Bool.eq_false_iff.mpr hcs
      unfold amendNum
      rw [List.all_cons, hcsf]
      simp

theorem amendNum_digit_cons {c : Char} (t : List Char)
    (hd : isDigitC c = true) (hdot : ¬ c = '.') :
    amendNum (c :: t) =
      (t.all (fun c => isDigitC c || c = '.') &&
        decide ((t.filter (fun c => c = '.')).length ≤ 1)) := by
  simp [amendNum, List.filter_cons, List.all_cons, List.any_cons, hd, hdot]

theorem amendNum_other_cons {c : Char} (t : List Char)
    (hd : ¬ isDigitC c = true) (hdot : ¬ c = '.') :
    amendNum (c :: t) = false := by
  simp [amendNum, List.all_cons, hd, hdot]

theorem symAB_eq_amendNum (l : List Char) :
    (symAltA l || symAltB l) = amendNum (stripNeg l) := by
  unfold symAltA symAltB
  generalize stripNeg l = m
  cases m with
  | nil => rfl
  | cons c t =>
    by_cases hdot : c = '.'
    · subst hdot
      rw [List.takeWhile_cons, if_neg (by decide), amendNum_dot_cons]
      simp [Bool.and_comm]
    · by_cases hd : isDigitC c = true
      · rw [List.takeWhile_cons, if_pos hd, List.dropWhile_cons, if_pos hd,
          fracTail_eq_charset t, amendNum_digit_cons t hd hdot]
        simp [hdot]
      · rw [List.takeWhile_cons, if_neg hd, amendNum_other_cons t hd hdot]
        simp [hdot]

theorem symAltC_eq_amendIdent : ∀ l : List Char, symAltC l = amendIdent l
  | [] => rfl
  | _ :: _ => rfl

theorem symMatch_eq_amendSym (l : List Char) : symMatch l = amendSym l := by
  unfold symMatch amendSym
  rw [Bool.or_assoc, symAltC_eq_amendIdent, ← symAB_eq_amendNum, Bool.or_assoc]

/-! ### Strings the writer leaves bare consist of bare-token
characters; in particular they contain no backslash and no quote, so
they pass through the whole codec untouched. -/

theorem bare_of_digit {c : Char} (h : isDigitC c = true) :
    isBareChar c = true := by
  simp [isBareChar, h]

theorem bare_of_numchar {c : Char} (h : (isDigitC c || c = '.') = true) :
    isBareChar c = true := by
  rcases Bool.or_eq_true_iff.mp h with h1 | h1
  · exact bare_of_digit h1
  · have : c = '.' := by simpa using h1
    subst this
    decide

theorem symMatch_imp {d : List Char} (h : symMatch d = true) :
    d ≠ [] ∧ ∀ c ∈ d, isBareChar c = true := by
  rw [symMatch_eq_amendSym] at h
  unfold amendSym at h
  rw [Bool.or_eq_true] at h
  rcases h with hnum | hident
  · cases d with
    | nil => simp [stripNeg, amendNum] at hnum
    | cons c t =>
      refine ⟨by simp, ?_⟩
      intro x hx
      unfold amendNum at hnum
      by_cases hneg : c = '-'
      · subst hneg
        rw [show stripNeg ('-' :: t) = t by simp [stripNeg]] at hnum
        rcases List.mem_cons.mp hx with hx1 | hx1
        · subst hx1
          decide
        · have hcs : ∀ y ∈ t, (isDigitC y || y = '.') = true := by
            have := hnum
            rw [Bool.and_eq_true, Bool.and_eq_true, Bool.and_eq_true] at this
            exact List.all_eq_true.mp this.1.1.2
          exact bare_of_numchar (hcs x hx1)
      · rw [show stripNeg (c :: t) = c :: t by simp [stripNeg, hneg]] at hnum
        have hcs : ∀ y ∈ c :: t, (isDigitC y || y = '.') = true := by
          rw [Bool.and_eq_true, Bool.and_eq_true, Bool.and_eq_true] at hnum
          exact List.all_eq_true.mp hnum.1.1.2
        exact bare_of_numchar (hcs x hx)
  · cases d with
    | nil => simp [amendIdent] at hident
    | cons c t =>
      refine ⟨by simp, ?_⟩
      intro x hx
      unfold amendIdent at hident
      simp only [List.head?_cons, List.tail_cons] at hident
      rw [Bool.and_eq_true] at hident
      rcases List.mem_cons.mp hx with hx1 | hx1
      · subst hx1
        rcases Bool.or_eq_true_iff.mp hident.1 with h1 | h1
        · rcases Bool.or_eq_true_iff.mp h1 with h2 | h2
          · rcases Bool.or_eq_true_iff.mp h2 with h3 | h3
            · rcases Bool.or_eq_true_iff.mp h3 with h4 | h4
              · have : x = '_' := by simpa using h4
                subst this; decide
              · simp [isBareChar, h4]
            · exact bare_of_digit h3
          · have : x = '/' := by simpa using h2
            subst this; decide
        · have : x = '.' := by simpa using h1
          subst this; decide
      · have hts := List.all_eq_true.mp hident.2 x hx1
        rcases Bool.or_eq_true_iff.mp hts with h1 | h1
        · rcases Bool.or_eq_true_iff.mp h1 with h2 | h2
          · rcases Bool.or_eq_true_iff.mp h2 with h3 | h3
            · have : x = '_' := by simpa using h3
              subst this; decide
            · simp [isBareChar, h3]
          · exact bare_of_digit h2
        · have : x = '.' := by simpa using h1
          subst this; decide

/-! ### Round-trip preliminaries: character classifications and
matcher lemmas over a serialized fragment -/

theorem char_eq_of_toNat {a b : Char} (h : a.toNat = b.toNat) : a = b :=
  Char.eq_of_val_eq (UInt32.eq_of_val_eq (Fin.eq_of_val_eq h))

theorem char_le_iff_toNat {a b : Char} : a ≤ b ↔ a.toNat ≤ b.toNat := by
  rw [Char.le_def, UInt32.le_def]
  rfl

theorem pySpace_false_of_toNat {c : Char}
    (h1 : 0x21 ≤ c.toNat) (h2 : c.toNat ≤ 0x7e) : pySpace c = false := by
  rw [Bool.eq_false_iff]
  intro hsp
  unfold pySpace at hsp
  simp only [Bool.or_eq_true, Bool.and_eq_true, decide_eq_true_eq] at hsp
  omega

theorem bare_toNat_range {c : Char} (h : isBareChar c = true) :
    0x21 ≤ c.toNat ∧ c.toNat ≤ 0x7e := by
  unfold isBareChar isAlphaC isDigitC at h
  simp only [Bool.or_eq_true, Bool.and_eq_true, decide_eq_true_eq] at h
  rcases h with ((((((h | h) | h) | h) | h) | (⟨a, b⟩ | ⟨a, b⟩)) | ⟨a, b⟩)
  · subst h; decide
  · subst h; decide
  · subst h; decide
  · subst h; decide
  · subst h; decide
  · rw [char_le_iff_toNat] at a b
    rw [show ('a' : Char).toNat = 97 by decide] at a
    rw [show ('z' : Char).toNat = 122 by decide] at b
    constructor <;> omega
  · rw [char_le_iff_toNat] at a b
    rw [show ('A' : Char).toNat = 65 by decide] at a
    rw [show ('Z' : Char).toNat = 90 by decide] at b
    constructor <;> omega
  · rw [char_le_iff_toNat] at a b
    rw [show ('0' : Char).toNat = 48 by decide] at a
    rw [show ('9' : Char).toNat = 57 by decide] at b
    constructor <;> omega

theorem bare_not_space {c : Char} (h : isBareChar c = true) :
    pySpace c = false :=
  pySpace_false_of_toNat (bare_toNat_range h).1 (bare_toNat_range h).2

mutual

/-- A tree every scalar and key of which the codec round-trips, with
pairwise distinct keys in every dict. -/
def goodNode : Node → Bool
  | .scalar s => goodStr s
  | .seq l => goodNodeList l
  | .dict m => goodPairs m

/-- `goodNode` on every element. -/
def goodNodeList : NodeList → Bool
  | .nil => true
  | .cons v t => goodNode v && goodNodeList t

/-- Good keys and values, and no key repeated. -/
def goodPairs : PairList → Bool
  | .nil => true
  | .cons k v t =>
    goodStr k && goodNode v && goodPairs t && !(keyList t).contains k

end

mutual

/-- Fuel needed by `parseStep` to parse a serialized node. -/
def costN : Node → Nat
  | .scalar _ => 1
  | .seq l => 2 + costL l
  | .dict m => 2 + costP m

/-- Fuel needed by the list loop. -/
def costL : NodeList → Nat
  | .nil => 0
  | .cons v t => 1 + costN v + costL t

/-- Fuel needed by the dict loop. -/
def costP : PairList → Nat
  | .nil => 0
  | .cons _ v t => 1 + costN v + costP t

end

/-- Pair list concatenation. -/
def plAppend : PairList → PairList → PairList
  | .nil, q => q
  | .cons k v t, q => .cons k v (plAppend t q)

/-- Node list concatenation. -/
def nlAppend : NodeList → NodeList → NodeList
  | .nil, q => q
  | .cons v t, q => .cons v (nlAppend t q)

theorem plAppend_assoc :
    ∀ a b c : PairList, plAppend (plAppend a b) c = plAppend a (plAppend b c)
  | .nil, _, _ => rfl
  | .cons k v t, b, c => by
    show PairList.cons k v (plAppend (plAppend t b) c) = _
    rw [plAppend_assoc t b c]
    rfl

theorem nlAppend_assoc :
    ∀ a b c : NodeList, nlAppend (nlAppend a b) c = nlAppend a (nlAppend b c)
  | .nil, _, _ => rfl
  | .cons v t, b, c => by
    show NodeList.cons v (nlAppend (nlAppend t b) c) = _
    rw [nlAppend_assoc t b c]
    rfl

theorem snoc_eq_nlAppend :
    ∀ (a : NodeList) (v : Node), a.snoc v = nlAppend a (.cons v .nil)
  | .nil, _ => rfl
  | .cons h t, v => by
    show NodeList.cons h (t.snoc v) = _
    rw [snoc_eq_nlAppend t v]
    rfl

theorem odInsert_eq_append (k : List Char) (v : Node) :
    ∀ a : PairList, k ∉ keyList a →
      odInsert a k v = plAppend a (.cons k v .nil)
  | .nil, _ => rfl
  | .cons k' v' t, h => by
    have hk : ¬ k' = k := by
      intro he
      exact h (by simp [keyList, he])
    show odInsert (.cons k' v' t) k v = _
    unfold odInsert
    rw [if_neg hk, odInsert_eq_append k v t (fun hm => h (by simp [keyList, hm]))]
    rfl

/-- What can legally follow a serialized value in a serialized
document. -/
def safeRest (rest : List Char) : Prop :=
  rest.head? = some ';' ∨ rest.head? = some ',' ∨ rest.head? = some '\n'

/-! Shapes of the writer output at the default options (indent 0, pads
empty). -/

theorem wNode_scalar (s : List Char) :
    wNode 0 0 true (.scalar s) = escape_text s := rfl

theorem wNode_dict (m : PairList) :
    wNode 0 0 true (.dict m) =
      '{' :: '\n' :: (wPairs 0 0 true m ++ ['}']) := rfl

theorem wNode_seq (l : NodeList) :
    wNode 0 0 true (.seq l) =
      '(' :: (wItems 0 0 true true l ++ ('\n' :: [')'])) := rfl

theorem wPairs_cons_shape (k : List Char) (v : Node) (ps : PairList) :
    wPairs 0 0 true (.cons k v ps) =
      escape_text k ++ (' ' :: '=' :: ' ' :: wNode 0 0 true v) ++
        (';' :: '\n' :: wPairs 0 0 true ps) := rfl

theorem wItems_first_shape (v : Node) (vs : NodeList) :
    wItems 0 0 true true (.cons v vs) =
      '\n' :: (wNode 0 0 true v ++ wItems 0 0 true false vs) := rfl

theorem wItems_rest_shape (v : Node) (vs : NodeList) :
    wItems 0 0 true false (.cons v vs) =
      ',' :: '\n' :: (wNode 0 0 true v ++ wItems 0 0 true false vs) := rfl

theorem takeWhile_append_of_all (p : Char → Bool) :
    ∀ (l1 l2 : List Char), (∀ x ∈ l1, p x = true) →
      (l1 ++ l2).takeWhile p = l1 ++ l2.takeWhile p
  | [], _, _ => rfl
  | a :: t, l2, h => by
    rw [List.cons_append, List.takeWhile_cons, if_pos (h a (by simp)),
      takeWhile_append_of_all p t l2 (fun x hx => h x (by simp [hx]))]
    rfl

theorem wsCount_lead (sp : List Char) (c : Char) (l2 : List Char)
    (hsp : ∀ x ∈ sp, pySpace x = true) (hc : pySpace c = false) :
    wsCount (sp ++ c :: l2) = sp.length := by
  unfold wsCount
  rw [takeWhile_append_of_all pySpace sp (c :: l2) hsp, List.takeWhile_cons,
    if_neg (by rw [hc]; exact Bool.false_ne_true)]
  simp

theorem drop_shift {t : List Char} {i : Nat} {X Y : List Char}
    (h : t.drop i = X ++ Y) : t.drop (i + X.length) = Y := by
  have := List.drop_drop X.length i t
  rw [← this, h, List.drop_left]

theorem litAfterWs_pos (c : Char) (sp l2 : List Char)
    (hsp : ∀ x ∈ sp, pySpace x = true) (hc : pySpace c = false) :
    litAfterWs c (sp ++ c :: l2) = some (sp.length + 1) := by
  unfold litAfterWs
  rw [wsCount_lead sp c l2 hsp hc, List.drop_left]
  simp

theorem litAfterWs_neg (c c' : Char) (sp l2 : List Char)
    (hsp : ∀ x ∈ sp, pySpace x = true) (hc' : pySpace c' = false)
    (hne : ¬ c' = c) :
    litAfterWs c (sp ++ c' :: l2) = none := by
  unfold litAfterWs
  rw [wsCount_lead sp c' l2 hsp hc', List.drop_left]
  simp [hne]

theorem goodStr_cons {c : Char} {t : List Char} (hg : goodStr (c :: t) = true) :
    goodChar c = true ∧ goodStr t = true := by
  rw [goodStr, List.all_cons, Bool.and_eq_true] at hg
  exact hg

/-! Stepping the quote scans of `value_re` and `attr_re` over one
character. -/

theorem findClose_ne (p c : Char) (l : List Char) (hc : ¬ c = '"') :
    findClose p (c :: l) = (findClose c l).map (fun n => n + 1) := by
  simp [findClose, hc]

theorem findClose_q_bs (l : List Char) :
    findClose '\\' ('"' :: l) = (findClose '"' l).map (fun n => n + 1) := by
  simp [findClose]

theorem findClose_close (p : Char) (l : List Char) (hp : ¬ p = '\\') :
    findClose p ('"' :: l) = some 0 := by
  simp [findClose, hp]

theorem findCloseAttr_ne (p c : Char) (l : List Char) (hc : ¬ c = '"') :
    findCloseAttr p (c :: l) =
      (findCloseAttr c l).map (fun q => (q.1 + 1, q.2)) := by
  simp [findCloseAttr, hc]

theorem findCloseAttr_q_bs (l : List Char) :
    findCloseAttr '\\' ('"' :: l) =
      (findCloseAttr '"' l).map (fun q => (q.1 + 1, q.2)) := by
  simp [findCloseAttr]

theorem findCloseAttr_close (p : Char) (l : List Char) (m : Nat)
    (hp : ¬ p = '\\') (hm : litAfterWs '=' l = some m) :
    findCloseAttr p ('"' :: l) = some (0, m) := by
  simp [findCloseAttr, hp, hm]

/-- Skipping a quote-free block moves the scan of `findClose` across it
and updates the lookbehind character to the block's last character. -/
theorem findClose_no_q (p : Char) :
    ∀ (u l : List Char), (∀ x ∈ u, ¬ x = '"') →
      findClose p (u ++ l) =
        (findClose (u.getLastD p) l).map (fun n => n + u.length)
  | [], l, _ => by
    cases h : findClose p l <;> simp [List.getLastD, h]
  | c :: u, l, h => by
    rw [List.cons_append, findClose_ne p c _ (h c (by simp)),
      findClose_no_q c u l (fun x hx => h x (by simp [hx]))]
    rw [List.getLastD_cons]
    cases hx : findClose (u.getLastD c) l with
    | none => simp
    | some n => simp; omega

/-- The same for the scan of `attr_re`. -/
theorem findCloseAttr_no_q (p : Char) :
    ∀ (u l : List Char), (∀ x ∈ u, ¬ x = '"') →
      findCloseAttr p (u ++ l) =
        (findCloseAttr (u.getLastD p) l).map (fun q => (q.1 + u.length, q.2))
  | [], l, _ => by
    cases h : findCloseAttr p l <;> simp [List.getLastD, h]
  | c :: u, l, h => by
    rw [List.cons_append, findCloseAttr_ne p c _ (h c (by simp)),
      findCloseAttr_no_q c u l (fun x hx => h x (by simp [hx]))]
    rw [List.getLastD_cons]
    cases hx : findCloseAttr (u.getLastD c) l with
    | none => simp
    | some q => simp; omega

/-- The escape of a non-quote character contains no quote and never ends
in a backslash. -/
theorem escChar_unit_props {c : Char} (hgc : goodChar c = true)
    (hq : ¬ c = '"') :
    (∀ x ∈ escChar c, ¬ x = '"') ∧
      (∀ p : Char, ¬ (escChar c).getLastD p = '\\') := by
  obtain ⟨hbs, hle⟩ := goodChar_spec hgc
  by_cases hplain : (0x20 ≤ c.toNat ∧ c.toNat ≤ 0x7e) ∨ c = '\t'
  · rw [escChar_plain hplain hq]
    constructor
    · intro x hx he
      rw [List.mem_singleton] at hx
      subst hx
      exact hq he
    · intro p
      simp only [List.getLastD_cons, List.getLastD_nil]
      exact hbs
  · push_neg at hplain
    obtain ⟨hnr, htab⟩ := hplain
    by_cases hlt : c.toNat < 0x20
    · rw [escChar_ctrl hlt htab]
      have h1 : c.toNat / 8 % 8 < 8 := Nat.mod_lt _ (by omega)
      have h2 : c.toNat % 8 < 8 := Nat.mod_lt _ (by omega)
      constructor
      · intro x hx
        simp only [List.mem_cons, List.not_mem_nil, or_false] at hx
        rcases hx with h | h | h | h
        · rw [h]; decide
        · rw [h]; decide
        · rw [h]; exact octDigitChar_ne_q h1
        · rw [h]; exact octDigitChar_ne_q h2
      · intro p
        simp only [List.getLastD_cons, List.getLastD_nil]
        exact octDigitChar_ne_bs h2
    · have hhi : 0x7f ≤ c.toNat := by
        have := hnr (by omega)
        omega
      rw [escChar_hi hhi]
      obtain ⟨a, b, c2, d, habcd, _, _, _, _, _, hprops⟩ :=
        hex04X_spec (v := c.toNat) (by omega) hle
      rw [habcd]
      constructor
      · intro x hx
        simp only [List.mem_cons, List.not_mem_nil, or_false] at hx
        rcases hx with h | h | h | h | h | h
        · rw [h]; decide
        · rw [h]; decide
        · rw [h]; exact (hprops a (by rw [habcd]; simp)).2
        · rw [h]; exact (hprops b (by rw [habcd]; simp)).2
        · rw [h]; exact (hprops c2 (by rw [habcd]; simp)).2
        · rw [h]; exact (hprops d (by rw [habcd]; simp)).2
      · intro p
        simp only [List.getLastD_cons, List.getLastD_nil]
        exact (hprops d (by rw [habcd]; simp)).1

/-- The quote scan of `value_re` finds exactly the closing quote of an
escaped body: every quote inside the body is protected by its
backslash. -/
theorem findClose_escData :
    ∀ (s : List Char) (p : Char) (rest : List Char), goodStr s = true →
      ¬ p = '\\' →
      findClose p (escData s ++ '"' :: rest) = some (escData s).length
  | [], p, rest, _, hp => findClose_close p rest hp
  | c :: t, p, rest, hg, hp => by
    obtain ⟨hgc, hgt⟩ := goodStr_cons hg
    have hsplit : escData (c :: t) ++ '"' :: rest =
        escChar c ++ (escData t ++ '"' :: rest) := by
      show (escChar c ++ escData t) ++ _ = _
      rw [List.append_assoc]
    have hlen : (escData (c :: t)).length =
        (escChar c).length + (escData t).length := by
      show (escChar c ++ escData t).length = _
      rw [List.length_append]
    rw [hsplit]
    by_cases hq : c = '"'
    · subst hq
      rw [show escChar '"' ++ (escData t ++ '"' :: rest) =
          '\\' :: '"' :: (escData t ++ '"' :: rest) from by
        rw [escChar_quote]; rfl]
      rw [findClose_ne p '\\' _ (by decide), findClose_q_bs,
        findClose_escData t '"' rest hgt (by decide)]
      show some ((escData t).length + 1 + 1) = _
      rw [hlen, escChar_quote]
      have he : (escData t).length + 1 + 1 =
          (['\\', '"'] : List Char).length + (escData t).length := by
        simp only [List.length_cons, List.length_nil]
        omega
      rw [he]
    · obtain ⟨hnq, hlast⟩ := escChar_unit_props hgc hq
      rw [findClose_no_q p (escChar c) _ hnq,
        findClose_escData t _ rest hgt (hlast p)]
      show some ((escData t).length + (escChar c).length) = _
      rw [hlen, Nat.add_comm]

/-- The quote scan of `attr_re` likewise stops at the closing quote,
where the mandatory `\s*=` then matches. -/
theorem findCloseAttr_escData :
    ∀ (s : List Char) (p : Char) (rest : List Char) (m : Nat),
      goodStr s = true → ¬ p = '\\' → litAfterWs '=' rest = some m →
      findCloseAttr p (escData s ++ '"' :: rest) =
        some ((escData s).length, m)
  | [], p, rest, m, _, hp, hm => findCloseAttr_close p rest m hp hm
  | c :: t, p, rest, m, hg, hp, hm => by
    obtain ⟨hgc, hgt⟩ := goodStr_cons hg
    have hsplit : escData (c :: t) ++ '"' :: rest =
        escChar c ++ (escData t ++ '"' :: rest) := by
      show (escChar c ++ escData t) ++ _ = _
      rw [List.append_assoc]
    have hlen : (escData (c :: t)).length =
        (escChar c).length + (escData t).length := by
      show (escChar c ++ escData t).length = _
      rw [List.length_append]
    rw [hsplit]
    by_cases hq : c = '"'
    · subst hq
      rw [show escChar '"' ++ (escData t ++ '"' :: rest) =
          '\\' :: '"' :: (escData t ++ '"' :: rest) from by
        rw [escChar_quote]; rfl]
      rw [findCloseAttr_ne p '\\' _ (by decide), findCloseAttr_q_bs,
        findCloseAttr_escData t '"' rest m hgt (by decide) hm]
      show some ((escData t).length + 1 + 1, m) = _
      rw [hlen, escChar_quote]
      have he : (escData t).length + 1 + 1 =
          (['\\', '"'] : List Char).length + (escData t).length := by
        simp only [List.length_cons, List.length_nil]
        omega
      rw [he]
    · obtain ⟨hnq, hlast⟩ := escChar_unit_props hgc hq
      rw [findCloseAttr_no_q p (escChar c) _ hnq,
        findCloseAttr_escData t _ rest m hgt (hlast p) hm]
      show some ((escData t).length + (escChar c).length, m) = _
      rw [hlen, Nat.add_comm]

/-! Shapes of `escape_text` and the head of an escaped token. -/

theorem escape_text_bare_shape {s : List Char}
    (h : symMatch (escData s) = true) : escape_text s = escData s := by
  simp [escape_text, h]

theorem escape_text_quoted_shape {s : List Char}
    (h : symMatch (escData s) = false) :
    escape_text s = '"' :: (escData s ++ ['"']) := by
  simp [escape_text, h]

/-- The first character of every escaped token is a non-space character
distinct from every non-bare, non-quote character — in particular from
all the parser's punctuation. -/
theorem esc_head_ne (s : List Char) :
    ∃ c r, escape_text s = c :: r ∧ pySpace c = false ∧
      ∀ x, isBareChar x = false → ¬ x = '"' → ¬ c = x := by
  by_cases hsym : symMatch (escData s) = true
  · rw [escape_text_bare_shape hsym]
    obtain ⟨hne, hbare⟩ := symMatch_imp hsym
    cases hd : escData s with
    | nil => exact absurd hd hne
    | cons c r =>
      have hb : isBareChar c = true := hbare c (by rw [hd]; simp)
      refine ⟨c, r, rfl, bare_not_space hb, ?_⟩
      intro x hx _ hcx
      rw [hcx, hx] at hb
      exact absurd hb (by decide)
  · rw [escape_text_quoted_shape (Bool.eq_false_iff.mpr hsym)]
    exact ⟨'"', _, rfl, by decide, fun x _ hxq hcx => hxq hcx.symm⟩

/-- The escape codec round-trips every backslash-free string of
characters below `0x10000`. -/
theorem unescape_escape_text (s : List Char) (hg : goodStr s = true) :
    unescape_text (escape_text s) = some s := by
  unfold escape_text
  by_cases hsym : symMatch (escData s) = true
  · rw [if_pos hsym]
    obtain ⟨hne, hbare⟩ := symMatch_imp hsym
    have hnb : '\\' ∉ escData s := by
      intro hm
      have := hbare _ hm
      rw [show isBareChar '\\' = false by decide] at this
      cases this
    have hds : escData s = s := escData_no_bs_self s hnb
    rw [hds] at hne hbare hnb ⊢
    cases s with
    | nil => exact absurd rfl hne
    | cons c t =>
      have hcq : ¬ c = '"' := by
        intro hq
        have hb := hbare c (by simp)
        rw [hq, show isBareChar '"' = false by decide] at hb
        cases hb
      rw [unescape_text_unquoted c t hcq,
        unescSub_no_backslash (c :: t) hnb]
  · rw [if_neg hsym]
    show unescape_text ('"' :: (escData s ++ ['"'])) = some s
    rw [unescape_text_quoted (escData s), replaceQ_escData s hg,
      unescSub_flatRep s hg]

/-! The tokenizer on a serialized scalar. -/

theorem matchTok_quoted (s rest : List Char) (hg : goodStr s = true) :
    matchTok (('"' :: (escData s ++ ['"'])) ++ rest) =
      some ((escData s).length + 2, '"' :: (escData s ++ ['"'])) := by
  have hshape : ('"' :: (escData s ++ ['"'])) ++ rest =
      '"' :: (escData s ++ '"' :: rest) := by simp
  rw [hshape]
  unfold matchTok
  rw [if_pos (by rw [List.head?_cons])]
  rw [List.tail_cons, findClose_escData s '"' rest hg (by decide)]
  show some ((escData s).length + 2,
      '"' :: ((escData s ++ '"' :: rest).take (escData s).length ++ ['"'])) = _
  rw [List.take_left]

theorem matchTok_bare (d rest : List Char) (hne : d ≠ [])
    (hall : ∀ c ∈ d, isBareChar c = true)
    (hrest : ∀ r, rest.head? = some r → isBareChar r = false) :
    matchTok (d ++ rest) = some (d.length, d) := by
  have htw : (d ++ rest).takeWhile isBareChar = d := by
    rw [takeWhile_append_of_all isBareChar d rest hall]
    cases rest with
    | nil => simp
    | cons r rs =>
      rw [List.takeWhile_cons,
        if_neg (by rw [hrest r rfl]; exact Bool.false_ne_true)]
      simp
  obtain ⟨c, d', rfl⟩ : ∃ c d', d = c :: d' := by
    cases d with
    | nil => exact absurd rfl hne
    | cons c d' => exact ⟨c, d', rfl⟩
  have hcq : ¬ c = '"' := by
    intro he
    have := hall c (by simp)
    rw [he] at this
    exact absurd this (by decide)
  unfold matchTok
  rw [if_neg (by rw [List.cons_append, List.head?_cons]; simp [hcq]), htw]
  rw [if_neg (by simp)]

/-- `value_re` on whitespace, an escaped scalar, and safe following
text: it consumes the whitespace and exactly the token. -/
theorem matchValueTok_scalar (s sp rest : List Char) (hg : goodStr s = true)
    (hsp : ∀ x ∈ sp, pySpace x = true) (hrest : safeRest rest) :
    matchValueTok (sp ++ escape_text s ++ rest) =
      some (sp.length + (escape_text s).length, escape_text s) := by
  have hrest' : ∀ r, rest.head? = some r → isBareChar r = false := by
    intro r hr
    rcases hrest with h | h | h <;> rw [h] at hr <;>
      injection hr with hr <;> rw [← hr] <;> decide
  obtain ⟨c, r, hcr, hcsp, _⟩ := esc_head_ne s
  have hshape : sp ++ escape_text s ++ rest =
      sp ++ c :: (r ++ rest) := by
    rw [hcr]
    simp
  have hws : wsCount (sp ++ escape_text s ++ rest) = sp.length := by
    rw [hshape]
    exact wsCount_lead sp c (r ++ rest) hsp hcsp
  have hdrop : (sp ++ escape_text s ++ rest).drop sp.length =
      escape_text s ++ rest := by
    rw [List.append_assoc, List.drop_left]
  unfold matchValueTok
  rw [hws, hdrop]
  by_cases hsym : symMatch (escData s) = true
  · have hesc := escape_text_bare_shape hsym
    obtain ⟨hne, hbare⟩ := symMatch_imp hsym
    rw [hesc, matchTok_bare (escData s) rest hne hbare hrest']
    rfl
  · have hesc := escape_text_quoted_shape (Bool.eq_false_iff.mpr hsym)
    rw [hesc, matchTok_quoted s rest hg]
    have hlen : ('"' :: (escData s ++ ['"'])).length =
        (escData s).length + 2 := by simp
    rw [Option.map_some']
    rw [hlen]

/-- `attr_re` on whitespace, an escaped key, and the writer's ` = `:
it consumes the whitespace, the token, the following space and the
equals sign. -/
theorem matchAttr_key (k sp rest3 : List Char) (hg : goodStr k = true)
    (hsp : ∀ x ∈ sp, pySpace x = true) :
    matchAttr (sp ++ escape_text k ++ (' ' :: '=' :: rest3)) =
      some (sp.length + (escape_text k).length + 2, escape_text k) := by
  have hlit : litAfterWs '=' (' ' :: '=' :: rest3) = some 2 := by
    have := litAfterWs_pos '=' [' '] rest3
      (by intro x hx; rw [List.mem_singleton] at hx; subst hx; decide)
      (by decide)
    rw [show ([' '] : List Char) ++ '=' :: rest3 = ' ' :: '=' :: rest3
      from rfl] at this
    rw [this]
    rfl
  by_cases hsym : symMatch (escData k) = true
  · have hesc := escape_text_bare_shape hsym
    obtain ⟨hne, hbare⟩ := symMatch_imp hsym
    obtain ⟨c, d', hd⟩ : ∃ c d', escData k = c :: d' := by
      cases hx : escData k with
      | nil => exact absurd hx hne
      | cons c d' => exact ⟨c, d', rfl⟩
    have hcb : isBareChar c = true := hbare c (by rw [hd]; simp)
    have hcq : ¬ c = '"' := by
      intro he
      rw [he] at hcb
      exact absurd hcb (by decide)
    have hws : wsCount (sp ++ escape_text k ++ (' ' :: '=' :: rest3)) =
        sp.length := by
      rw [hesc, hd, List.append_assoc, List.cons_append]
      exact wsCount_lead sp c _ hsp (bare_not_space hcb)
    have hdrop :
        (sp ++ escape_text k ++ (' ' :: '=' :: rest3)).drop sp.length =
          escData k ++ (' ' :: '=' :: rest3) := by
      rw [hesc, List.append_assoc, List.drop_left]
    have htw : (escData k ++ (' ' :: '=' :: rest3)).takeWhile isBareChar =
        escData k := by
      rw [takeWhile_append_of_all isBareChar _ _ hbare, List.takeWhile_cons,
        if_neg (by decide)]
      simp
    unfold matchAttr
    rw [hws, hdrop]
    rw [if_neg (by
      rw [hd, List.cons_append, List.head?_cons]
      intro he
      injection he with he
      exact hcq he)]
    unfold matchAttrBare
    rw [htw]
    rw [if_neg (by rw [hd]; simp), List.drop_left, hlit, hesc]
  · have hesc := escape_text_quoted_shape (Bool.eq_false_iff.mpr hsym)
    have hws : wsCount (sp ++ escape_text k ++ (' ' :: '=' :: rest3)) =
        sp.length := by
      rw [hesc, List.append_assoc, List.cons_append]
      exact wsCount_lead sp '"' _ hsp (by decide)
    have hdrop :
        (sp ++ escape_text k ++ (' ' :: '=' :: rest3)).drop sp.length =
          escape_text k ++ (' ' :: '=' :: rest3) := by
      rw [List.append_assoc, List.drop_left]
    unfold matchAttr
    rw [hws, hdrop, hesc]
    rw [if_pos (by rw [List.cons_append, List.head?_cons])]
    rw [List.cons_append, List.tail_cons,
      show (escData k ++ ['"']) ++ (' ' :: '=' :: rest3) =
        escData k ++ '"' :: (' ' :: '=' :: rest3) from by simp,
      findCloseAttr_escData k '"' (' ' :: '=' :: rest3) 2 hg (by decide) hlit]
    show some (sp.length + ((escData k).length + 2) + 2,
        '"' :: ((escData k ++ '"' :: ' ' :: '=' :: rest3).take
          (escData k).length ++ ['"'])) = _
    rw [List.take_left]
    have hlen : ('"' :: (escData k ++ ['"'])).length =
        (escData k).length + 2 := by simp
    rw [hlen]

/-! Extractors for the good-tree predicate and small facts feeding the
round-trip induction. -/

theorem goodPairs_cons_spec {k : List Char} {v : Node} {t : PairList}
    (h : goodPairs (.cons k v t) = true) :
    goodStr k = true ∧ goodNode v = true ∧ goodPairs t = true ∧
      k ∉ keyList t := by
  have h' : (goodStr k && goodNode v && goodPairs t &&
      !(keyList t).contains k) = true := h
  rw [Bool.and_eq_true, Bool.and_eq_true, Bool.and_eq_true] at h'
  refine ⟨h'.1.1.1, h'.1.1.2, h'.1.2, ?_⟩
  intro hmem
  have hc : (keyList t).contains k = true := by
    rw [List.contains_iff_exists_mem_beq]
    exact ⟨k, hmem, by simp⟩
  rw [hc] at h'
  exact absurd h'.2 (by decide)

theorem goodNodeList_cons_spec {v : Node} {t : NodeList}
    (h : goodNodeList (.cons v t) = true) :
    goodNode v = true ∧ goodNodeList t = true := by
  have h' : (goodNode v && goodNodeList t) = true := h
  rw [Bool.and_eq_true] at h'
  exact h'

theorem keyList_plAppend :
    ∀ a b : PairList, keyList (plAppend a b) = keyList a ++ keyList b
  | .nil, _ => rfl
  | .cons k v t, b => by
    show k :: keyList (plAppend t b) = (k :: keyList t) ++ keyList b
    rw [keyList_plAppend t b]
    rfl

/-- Congruence for parse results. -/
theorem ok_pair_congr {v1 v2 : Node} {n1 n2 : Nat} (hv : v1 = v2)
    (hn : n1 = n2) :
    (Except.ok (v1, n1) : Except PErr (Node × Nat)) = .ok (v2, n2) := by
  rw [hv, hn]

/-! Serialized lengths of the writer's shapes. -/

theorem wNode_dict_len (m : PairList) :
    (wNode 0 0 true (.dict m)).length = (wPairs 0 0 true m).length + 3 := by
  rw [wNode_dict]
  simp only [List.length_cons, List.length_append, List.length_nil]

theorem wNode_seq_len (l : NodeList) :
    (wNode 0 0 true (.seq l)).length =
      (wItems 0 0 true true l).length + 3 := by
  rw [wNode_seq]
  simp only [List.length_cons, List.length_append, List.length_nil]

theorem wPairs_cons_len (k : List Char) (v : Node) (ps : PairList) :
    (wPairs 0 0 true (.cons k v ps)).length =
      (escape_text k).length + (wNode 0 0 true v).length +
        (wPairs 0 0 true ps).length + 5 := by
  rw [wPairs_cons_shape]
  simp only [List.length_cons, List.length_append, List.length_nil]
  omega

theorem wItems_first_len (v : Node) (vs : NodeList) :
    (wItems 0 0 true true (.cons v vs)).length =
      (wNode 0 0 true v).length + (wItems 0 0 true false vs).length + 1 := by
  rw [wItems_first_shape]
  simp only [List.length_cons, List.length_append, List.length_nil]

theorem wItems_rest_len (v : Node) (vs : NodeList) :
    (wItems 0 0 true false (.cons v vs)).length =
      (wNode 0 0 true v).length + (wItems 0 0 true false vs).length + 2 := by
  rw [wItems_rest_shape]
  simp only [List.length_cons, List.length_append, List.length_nil]

/-- The first character of every serialized node is non-space and
distinct from every character that is neither bare, a quote, an opening
brace, nor an opening parenthesis. -/
theorem wNode_head_ne (T : Node) :
    ∃ c r, wNode 0 0 true T = c :: r ∧ pySpace c = false ∧
      ∀ x, isBareChar x = false → ¬ x = '"' → ¬ x = '{' → ¬ x = '(' →
        ¬ c = x := by
  cases T with
  | scalar s =>
    obtain ⟨c, r, hcr, hcsp, hcne⟩ := esc_head_ne s
    exact ⟨c, r, by rw [wNode_scalar]; exact hcr, hcsp,
      fun x h1 h2 _ _ => hcne x h1 h2⟩
  | dict m =>
    exact ⟨'{', _, by rw [wNode_dict], by decide,
      fun x _ _ h3 _ hcx => h3 hcx.symm⟩
  | seq l =>
    exact ⟨'(', _, by rw [wNode_seq], by decide,
      fun x _ _ _ h4 hcx => h4 hcx.symm⟩

/-! ### The round-trip induction.

`rtVal` replays `Parser._parse` over the serialization of a good node:
whitespace, then exactly the written form, leaving the following text
untouched.  `rtDict` and `rtList` replay the container loops, with the
accumulator threaded exactly as `parseStep` does.  The fuel is bounded
below by the cost functions. -/

mutual

theorem rtVal :
    ∀ (T : Node) (t : List Char) (f i : Nat) (sp rest : List Char),
      goodNode T = true → (∀ x ∈ sp, pySpace x = true) →
      t.drop i = sp ++ wNode 0 0 true T ++ rest →
      safeRest rest → costN T ≤ f →
      parseStep t f (.value i) =
        .ok (T, i + sp.length + (wNode 0 0 true T).length)
  | .scalar s, t, f, i, sp, rest, hg, hsp, hdrop, hsafe, hcost => by
    obtain ⟨f', rfl⟩ : ∃ f', f = f' + 1 := ⟨f - 1, by
      have h1 : (1 : Nat) ≤ f := hcost
      omega⟩
    have hgs : goodStr s = true := hg
    have hdrop' : t.drop i = sp ++ escape_text s ++ rest := hdrop
    rw [wNode_scalar]
    obtain ⟨c, r, hcr, hcsp, hcne⟩ := esc_head_ne s
    have hshape : t.drop i = sp ++ c :: (r ++ rest) := by
      rw [hdrop', hcr]
      simp
    have h1 : litAfterWs '{' (t.drop i) = none := by
      rw [hshape]
      exact litAfterWs_neg '{' c sp _ hsp hcsp
        (hcne '{' (by decide) (by decide))
    have h2 : litAfterWs '(' (t.drop i) = none := by
      rw [hshape]
      exact litAfterWs_neg '(' c sp _ hsp hcsp
        (hcne '(' (by decide) (by decide))
    have h3 : matchValueTok (t.drop i) =
        some (sp.length + (escape_text s).length, escape_text s) := by
      rw [hdrop']
      exact matchValueTok_scalar s sp rest hgs hsp hsafe
    have h4 := unescape_escape_text s hgs
    simp only [parseStep, h1, h2, h3, h4]
    exact ok_pair_congr rfl (by omega)
  | .dict m, t, f, i, sp, rest, hg, hsp, hdrop, hsafe, hcost => by
    obtain ⟨f'', rfl⟩ : ∃ f'', f = f'' + 1 + 1 := ⟨f - 2, by
      have h2 : 2 + costP m ≤ f := hcost
      omega⟩
    have hgm : goodPairs m = true := hg
    rw [wNode_dict]
    have hshape : t.drop i =
        sp ++ '{' :: ('\n' :: (wPairs 0 0 true m ++ '}' :: rest)) := by
      rw [hdrop, wNode_dict]
      simp
    have h1 : litAfterWs '{' (t.drop i) = some (sp.length + 1) := by
      rw [hshape]
      exact litAfterWs_pos '{' sp _ hsp (by decide)
    have hdrop1 : t.drop (i + (sp.length + 1)) =
        '\n' :: (wPairs 0 0 true m ++ '}' :: rest) := by
      have h := drop_shift (t := t) (i := i) (X := sp ++ ['{'])
        (Y := '\n' :: (wPairs 0 0 true m ++ '}' :: rest))
        (by rw [hshape]; simp)
      rw [show ((sp ++ ['{'] : List Char)).length = sp.length + 1 from by
        simp] at h
      exact h
    cases m with
    | nil =>
      have hdrop1' : t.drop (i + (sp.length + 1)) = '\n' :: '}' :: rest :=
        hdrop1
      have h2 : litAfterWs '}' (t.drop (i + (sp.length + 1))) = some 2 := by
        rw [hdrop1']
        have hl := litAfterWs_pos '}' ['\n'] rest
          (by intro x hx; rw [List.mem_singleton] at hx; subst hx; decide)
          (by decide)
        rw [show (['\n'] : List Char) ++ '}' :: rest = '\n' :: '}' :: rest
          from rfl] at hl
        rw [hl]
        rfl
      simp only [parseStep, h1, h2]
      exact ok_pair_congr rfl (by
        have hl3 : ('{' :: '\n' ::
            (wPairs 0 0 true PairList.nil ++ ['}']) : List Char).length =
              3 := rfl
        rw [hl3]
        omega)
    | cons k v ps =>
      have hgp : goodPairs (.cons k v ps) = true := hgm
      obtain ⟨c, r, hcr, hcsp, hcne⟩ := esc_head_ne k
      obtain ⟨l2, hl2⟩ : ∃ l2,
          t.drop (i + (sp.length + 1)) = ['\n'] ++ c :: l2 :=
        ⟨r ++ ' ' :: '=' :: ' ' :: (wNode 0 0 true v ++
          ';' :: '\n' :: (wPairs 0 0 true ps ++ '}' :: rest)),
          by rw [hdrop1, wPairs_cons_shape, hcr]; simp⟩
      have h2 : litAfterWs '}' (t.drop (i + (sp.length + 1))) = none := by
        rw [hl2]
        exact litAfterWs_neg '}' c ['\n'] l2
          (by intro x hx; rw [List.mem_singleton] at hx; subst hx; decide)
          hcsp (hcne '}' (by decide) (by decide))
      have hcost' : costP (.cons k v ps) ≤ f'' := by
        have h2c : 2 + costP (.cons k v ps) ≤ f'' + 1 + 1 := hcost
        omega
      have hrec := rtDict k v ps t f'' (i + (sp.length + 1)) rest .nil hgp
        (by intro k0 hk0 hmem; simp [keyList] at hmem) hdrop1 hcost'
      simp only [parseStep, h1, h2]
      rw [hrec]
      refine ok_pair_congr rfl ?_
      have hlp : ('{' :: '\n' ::
          (wPairs 0 0 true (.cons k v ps) ++ ['}']) : List Char).length =
            (wPairs 0 0 true (.cons k v ps)).length + 3 := by
        simp only [List.length_cons, List.length_append, List.length_nil]
      rw [hlp]
      omega
  | .seq l, t, f, i, sp, rest, hg, hsp, hdrop, hsafe, hcost => by
    obtain ⟨f'', rfl⟩ : ∃ f'', f = f'' + 1 + 1 := ⟨f - 2, by
      have h2 : 2 + costL l ≤ f := hcost
      omega⟩
    have hgl : goodNodeList l = true := hg
    rw [wNode_seq]
    have hshape : t.drop i =
        sp ++ '(' :: (wItems 0 0 true true l ++ '\n' :: ')' :: rest) := by
      rw [hdrop, wNode_seq]
      simp
    have h1 : litAfterWs '{' (t.drop i) = none := by
      rw [hshape]
      exact litAfterWs_neg '{' '(' sp _ hsp (by decide) (by decide)
    have h2 : litAfterWs '(' (t.drop i) = some (sp.length + 1) := by
      rw [hshape]
      exact litAfterWs_pos '(' sp _ hsp (by decide)
    have hdrop1 : t.drop (i + (sp.length + 1)) =
        wItems 0 0 true true l ++ '\n' :: ')' :: rest := by
      have h := drop_shift (t := t) (i := i) (X := sp ++ ['('])
        (Y := wItems 0 0 true true l ++ '\n' :: ')' :: rest)
        (by rw [hshape]; simp)
      rw [show ((sp ++ ['('] : List Char)).length = sp.length + 1 from by
        simp] at h
      exact h
    cases l with
    | nil =>
      have hdrop1' : t.drop (i + (sp.length + 1)) = '\n' :: ')' :: rest :=
        hdrop1
      have h3 : litAfterWs ')' (t.drop (i + (sp.length + 1))) = some 2 := by
        rw [hdrop1']
        have hl := litAfterWs_pos ')' ['\n'] rest
          (by intro x hx; rw [List.mem_singleton] at hx; subst hx; decide)
          (by decide)
        rw [show (['\n'] : List Char) ++ ')' :: rest = '\n' :: ')' :: rest
          from rfl] at hl
        rw [hl]
        rfl
      simp only [parseStep, h1, h2, h3]
      exact ok_pair_congr rfl (by
        have hl3 : ('(' :: (wItems 0 0 true true NodeList.nil ++
            ('\n' :: [')'])) : List Char).length = 3 := rfl
        rw [hl3]
        omega)
    | cons v vs =>
      obtain ⟨hgv, hgvs⟩ := goodNodeList_cons_spec hgl
      obtain ⟨c, r, hcr, hcsp, hcne⟩ := wNode_head_ne v
      obtain ⟨l2, hl2⟩ : ∃ l2,
          t.drop (i + (sp.length + 1)) = ['\n'] ++ c :: l2 :=
        ⟨r ++ (wItems 0 0 true false vs ++ '\n' :: ')' :: rest),
          by rw [hdrop1, wItems_first_shape, hcr]; simp⟩
      have h3 : litAfterWs ')' (t.drop (i + (sp.length + 1))) = none := by
        rw [hl2]
        exact litAfterWs_neg ')' c ['\n'] l2
          (by intro x hx; rw [List.mem_singleton] at hx; subst hx; decide)
          hcsp (hcne ')' (by decide) (by decide) (by decide) (by decide))
      have hdropL : t.drop (i + (sp.length + 1)) =
          '\n' :: (wNode 0 0 true v ++
            (wItems 0 0 true false vs ++ ('\n' :: ')' :: rest))) := by
        rw [hdrop1, wItems_first_shape]
        simp
      have hcost' : costL (.cons v vs) ≤ f'' := by
        have h2c : 2 + costL (.cons v vs) ≤ f'' + 1 + 1 := hcost
        omega
      have hrec := rtList v vs t f'' (i + (sp.length + 1)) rest .nil hgv
        hgvs hdropL hcost'
      simp only [parseStep, h1, h2, h3]
      rw [hrec]
      refine ok_pair_congr rfl ?_
      have hli : ('(' :: (wItems 0 0 true true (.cons v vs) ++
          ('\n' :: [')'])) : List Char).length =
            (wItems 0 0 true true (.cons v vs)).length + 3 := by
        simp only [List.length_cons, List.length_append, List.length_nil]
      have hlf := wItems_first_len v vs
      rw [hli, hlf]
      omega
termination_by T _ _ _ _ _ _ _ _ _ _ => sizeOf T

theorem rtDict :
    ∀ (k : List Char) (v : Node) (ps : PairList) (t : List Char)
      (f i : Nat) (rest : List Char) (acc : PairList),
      goodPairs (.cons k v ps) = true →
      (∀ k0 ∈ keyList (PairList.cons k v ps), k0 ∉ keyList acc) →
      t.drop i = '\n' :: (wPairs 0 0 true (.cons k v ps) ++ '}' :: rest) →
      costP (.cons k v ps) ≤ f →
      parseStep t f (.dictLoop i acc) =
        .ok (.dict (plAppend acc (.cons k v ps)),
          i + (1 + (wPairs 0 0 true (.cons k v ps)).length + 1))
  | k, v, ps, t, f, i, rest, acc, hgp, hdisj, hdrop, hcost => by
    obtain ⟨hgk, hgv, hgps, hknotin⟩ := goodPairs_cons_spec hgp
    obtain ⟨f', rfl⟩ : ∃ f', f = f' + 1 := ⟨f - 1, by
      have h1 : 1 + costN v + costP ps ≤ f := hcost
      omega⟩
    have hmemk : k ∉ keyList acc := hdisj k (by rw [keyList]; simp)
    have hshape : t.drop i = ['\n'] ++ escape_text k ++
        (' ' :: '=' :: (' ' :: (wNode 0 0 true v ++
          (';' :: '\n' :: (wPairs 0 0 true ps ++ '}' :: rest))))) := by
      rw [hdrop, wPairs_cons_shape]
      simp
    have hattr : matchAttr (t.drop i) =
        some (1 + (escape_text k).length + 2, escape_text k) := by
      rw [hshape]
      have h := matchAttr_key k ['\n'] (' ' :: (wNode 0 0 true v ++
        (';' :: '\n' :: (wPairs 0 0 true ps ++ '}' :: rest)))) hgk
        (by intro x hx; rw [List.mem_singleton] at hx; subst hx; decide)
      rw [show (['\n'] : List Char).length = 1 from rfl] at h
      exact h
    have hkey := unescape_escape_text k hgk
    have hdropv : t.drop (i + (1 + (escape_text k).length + 2)) =
        [' '] ++ wNode 0 0 true v ++
          (';' :: '\n' :: (wPairs 0 0 true ps ++ '}' :: rest)) := by
      have h := drop_shift (t := t) (i := i)
        (X := '\n' :: (escape_text k ++ [' ', '=']))
        (Y := [' '] ++ wNode 0 0 true v ++
          (';' :: '\n' :: (wPairs 0 0 true ps ++ '}' :: rest)))
        (by rw [hshape]; simp)
      rw [show ('\n' :: (escape_text k ++ [' ', '='])).length =
          1 + (escape_text k).length + 2 from by
        simp only [List.length_cons, List.length_append, List.length_nil]
        omega] at h
      exact h
    have hcostv : costN v ≤ f' := by
      have h1 : 1 + costN v + costP ps ≤ f' + 1 := hcost
      omega
    have hv := rtVal v t f' (i + (1 + (escape_text k).length + 2)) [' ']
      (';' :: '\n' :: (wPairs 0 0 true ps ++ '}' :: rest)) hgv
      (by intro x hx; rw [List.mem_singleton] at hx; subst hx; decide)
      hdropv (Or.inl rfl) hcostv
    rw [show ([' '] : List Char).length = 1 from rfl] at hv
    have hdrop2 : t.drop (i + (1 + (escape_text k).length + 2) + 1 +
        (wNode 0 0 true v).length) =
          ';' :: '\n' :: (wPairs 0 0 true ps ++ '}' :: rest) := by
      have h := drop_shift (t := t)
        (i := i + (1 + (escape_text k).length + 2))
        (X := ' ' :: wNode 0 0 true v)
        (Y := ';' :: '\n' :: (wPairs 0 0 true ps ++ '}' :: rest))
        (by rw [hdropv]; simp)
      rw [show (' ' :: wNode 0 0 true v).length =
          (wNode 0 0 true v).length + 1 from by simp] at h
      rw [show i + (1 + (escape_text k).length + 2) +
          ((wNode 0 0 true v).length + 1) =
            i + (1 + (escape_text k).length + 2) + 1 +
              (wNode 0 0 true v).length from by omega] at h
      exact h
    have hsemi : litAfterWs ';' (t.drop (i + (1 + (escape_text k).length +
        2) + 1 + (wNode 0 0 true v).length)) = some 1 := by
      rw [hdrop2]
      have hl := litAfterWs_pos ';' []
        ('\n' :: (wPairs 0 0 true ps ++ '}' :: rest))
        (by intro x hx; cases hx) (by decide)
      rw [List.nil_append] at hl
      rw [hl]
      rfl
    have hdrop3 : t.drop (i + (1 + (escape_text k).length + 2) + 1 +
        (wNode 0 0 true v).length + 1) =
          '\n' :: (wPairs 0 0 true ps ++ '}' :: rest) := by
      have h := drop_shift (t := t)
        (i := i + (1 + (escape_text k).length + 2) + 1 +
          (wNode 0 0 true v).length)
        (X := [';'])
        (Y := '\n' :: (wPairs 0 0 true ps ++ '}' :: rest))
        (by rw [hdrop2]; rfl)
      rw [show ([';'] : List Char).length = 1 from rfl] at h
      exact h
    cases ps with
    | nil =>
      have hdrop3' : t.drop (i + (1 + (escape_text k).length + 2) + 1 +
          (wNode 0 0 true v).length + 1) = '\n' :: '}' :: rest := hdrop3
      have hend : litAfterWs '}' (t.drop (i + (1 + (escape_text k).length +
          2) + 1 + (wNode 0 0 true v).length + 1)) = some 2 := by
        rw [hdrop3']
        have hl := litAfterWs_pos '}' ['\n'] rest
          (by intro x hx; rw [List.mem_singleton] at hx; subst hx; decide)
          (by decide)
        rw [show (['\n'] : List Char) ++ '}' :: rest = '\n' :: '}' :: rest
          from rfl] at hl
        rw [hl]
        rfl
      simp only [parseStep, hattr, hkey, hv, hsemi, hend]
      refine ok_pair_congr ?_ ?_
      · rw [odInsert_eq_append k v acc hmemk]
      · rw [wPairs_cons_len]
        have h0 : (wPairs 0 0 true PairList.nil).length = 0 := rfl
        rw [h0]
        omega
    | cons k2 v2 ps2 =>
      obtain ⟨c2, r2, hcr2, hcsp2, hcne2⟩ := esc_head_ne k2
      obtain ⟨l2, hl2⟩ : ∃ l2, t.drop (i + (1 + (escape_text k).length +
          2) + 1 + (wNode 0 0 true v).length + 1) = ['\n'] ++ c2 :: l2 :=
        ⟨r2 ++ ' ' :: '=' :: ' ' :: (wNode 0 0 true v2 ++
          ';' :: '\n' :: (wPairs 0 0 true ps2 ++ '}' :: rest)),
          by rw [hdrop3, wPairs_cons_shape, hcr2]; simp⟩
      have hend : litAfterWs '}' (t.drop (i + (1 + (escape_text k).length +
          2) + 1 + (wNode 0 0 true v).length + 1)) = none := by
        rw [hl2]
        exact litAfterWs_neg '}' c2 ['\n'] l2
          (by intro x hx; rw [List.mem_singleton] at hx; subst hx; decide)
          hcsp2 (hcne2 '}' (by decide) (by decide))
      have hdisj' : ∀ k0 ∈ keyList (PairList.cons k2 v2 ps2),
          k0 ∉ keyList (odInsert acc k v) := by
        intro k0 hk0
        rw [odInsert_eq_append k v acc hmemk, keyList_plAppend]
        intro hmem0
        rcases List.mem_append.mp hmem0 with hin | hin
        · exact hdisj k0 (by rw [keyList]; exact List.mem_cons_of_mem _ hk0)
            hin
        · have hk0k : k0 = k := by
            rw [show keyList (PairList.cons k v PairList.nil) = [k]
              from rfl] at hin
            rw [List.mem_singleton] at hin
            exact hin
          rw [hk0k] at hk0
          exact hknotin hk0
      have hcost2 : costP (.cons k2 v2 ps2) ≤ f' := by
        have h1 : 1 + costN v + costP (.cons k2 v2 ps2) ≤ f' + 1 := hcost
        omega
      have hrec := rtDict k2 v2 ps2 t f' (i + (1 + (escape_text k).length +
        2) + 1 + (wNode 0 0 true v).length + 1) rest (odInsert acc k v)
        hgps hdisj' hdrop3 hcost2
      simp only [parseStep, hattr, hkey, hv, hsemi, hend]
      rw [hrec]
      refine ok_pair_congr ?_ ?_
      · rw [odInsert_eq_append k v acc hmemk, plAppend_assoc]
        rfl
      · rw [wPairs_cons_len k v (.cons k2 v2 ps2)]
        omega
termination_by _ v ps _ _ _ _ _ _ _ _ _ => 1 + sizeOf v + sizeOf ps

theorem rtList :
    ∀ (v : Node) (vs : NodeList) (t : List Char) (f i : Nat)
      (rest : List Char) (acc : NodeList),
      goodNode v = true → goodNodeList vs = true →
      t.drop i = '\n' :: (wNode 0 0 true v ++
        (wItems 0 0 true false vs ++ ('\n' :: ')' :: rest))) →
      costL (.cons v vs) ≤ f →
      parseStep t f (.listLoop i acc) =
        .ok (.seq (nlAppend acc (.cons v vs)),
          i + (1 + (wNode 0 0 true v).length +
            (wItems 0 0 true false vs).length + 2))
  | v, vs, t, f, i, rest, acc, hgv, hgvs, hdrop, hcost => by
    obtain ⟨f', rfl⟩ : ∃ f', f = f' + 1 := ⟨f - 1, by
      have h1 : 1 + costN v + costL vs ≤ f := hcost
      omega⟩
    have hdropv : t.drop i = ['\n'] ++ wNode 0 0 true v ++
        (wItems 0 0 true false vs ++ ('\n' :: ')' :: rest)) := hdrop
    have hsafe2 : safeRest (wItems 0 0 true false vs ++
        ('\n' :: ')' :: rest)) := by
      cases vs with
      | nil => exact Or.inr (Or.inr rfl)
      | cons v2 vs2 => exact Or.inr (Or.inl rfl)
    have hcostv : costN v ≤ f' := by
      have h1 : 1 + costN v + costL vs ≤ f' + 1 := hcost
      omega
    have hv := rtVal v t f' i ['\n']
      (wItems 0 0 true false vs ++ ('\n' :: ')' :: rest)) hgv
      (by intro x hx; rw [List.mem_singleton] at hx; subst hx; decide)
      hdropv hsafe2 hcostv
    rw [show (['\n'] : List Char).length = 1 from rfl] at hv
    have hdrop1 : t.drop (i + 1 + (wNode 0 0 true v).length) =
        wItems 0 0 true false vs ++ ('\n' :: ')' :: rest) := by
      have h := drop_shift (t := t) (i := i)
        (X := '\n' :: wNode 0 0 true v)
        (Y := wItems 0 0 true false vs ++ ('\n' :: ')' :: rest))
        (by rw [hdrop]; simp)
      rw [show ('\n' :: wNode 0 0 true v).length =
          (wNode 0 0 true v).length + 1 from by simp] at h
      rw [show i + ((wNode 0 0 true v).length + 1) =
          i + 1 + (wNode 0 0 true v).length from by omega] at h
      exact h
    cases vs with
    | nil =>
      have hdrop1' : t.drop (i + 1 + (wNode 0 0 true v).length) =
          '\n' :: ')' :: rest := hdrop1
      have hend : litAfterWs ')'
          (t.drop (i + 1 + (wNode 0 0 true v).length)) = some 2 := by
        rw [hdrop1']
        have hl := litAfterWs_pos ')' ['\n'] rest
          (by intro x hx; rw [List.mem_singleton] at hx; subst hx; decide)
          (by decide)
        rw [show (['\n'] : List Char) ++ ')' :: rest = '\n' :: ')' :: rest
          from rfl] at hl
        rw [hl]
        rfl
      simp only [parseStep, hv, hend]
      refine ok_pair_congr ?_ ?_
      · rw [snoc_eq_nlAppend]
      · have h0 : (wItems 0 0 true false NodeList.nil).length = 0 := rfl
        rw [h0]
        omega
    | cons v2 vs2 =>
      obtain ⟨hgv2, hgvs2⟩ := goodNodeList_cons_spec hgvs
      obtain ⟨l2, hl2⟩ : ∃ l2,
          t.drop (i + 1 + (wNode 0 0 true v).length) =
            ([] : List Char) ++ ',' :: l2 :=
        ⟨'\n' :: (wNode 0 0 true v2 ++
          (wItems 0 0 true false vs2 ++ '\n' :: ')' :: rest)),
          by rw [hdrop1, wItems_rest_shape]; simp⟩
      have hend : litAfterWs ')'
          (t.drop (i + 1 + (wNode 0 0 true v).length)) = none := by
        rw [hl2]
        exact litAfterWs_neg ')' ',' [] l2 (by intro x hx; cases hx)
          (by decide) (by decide)
      have hdelim : litAfterWs ','
          (t.drop (i + 1 + (wNode 0 0 true v).length)) = some 1 := by
        rw [hl2]
        have hl := litAfterWs_pos ',' [] l2 (by intro x hx; cases hx)
          (by decide)
        rw [List.nil_append] at hl
        rw [List.nil_append, hl]
        rfl
      have hdropn : t.drop (i + 1 + (wNode 0 0 true v).length + 1) =
          '\n' :: (wNode 0 0 true v2 ++
            (wItems 0 0 true false vs2 ++ ('\n' :: ')' :: rest))) := by
        have h := drop_shift (t := t)
          (i := i + 1 + (wNode 0 0 true v).length)
          (X := [','])
          (Y := '\n' :: (wNode 0 0 true v2 ++
            (wItems 0 0 true false vs2 ++ ('\n' :: ')' :: rest))))
          (by rw [hdrop1, wItems_rest_shape]; simp)
        rw [show ([','] : List Char).length = 1 from rfl] at h
        exact h
      have hcost2 : costL (.cons v2 vs2) ≤ f' := by
        have h1 : 1 + costN v + costL (.cons v2 vs2) ≤ f' + 1 := hcost
        omega
      have hrec := rtList v2 vs2 t f'
        (i + 1 + (wNode 0 0 true v).length + 1) rest (acc.snoc v) hgv2
        hgvs2 hdropn hcost2
      simp only [parseStep, hv, hend, hdelim]
      rw [hrec]
      refine ok_pair_congr ?_ ?_
      · rw [snoc_eq_nlAppend, nlAppend_assoc]
        rfl
      · rw [wItems_rest_len v2 vs2]
        omega
termination_by v vs _ _ _ _ _ _ _ _ _ => 1 + sizeOf v + sizeOf vs

end

/-! The cost functions are dominated by the serialized length, so the
fuel `parse` allots always suffices. -/

mutual

theorem costN_le : ∀ T : Node, costN T ≤ (wNode 0 0 true T).length + 1
  | .scalar s => by
    show 1 ≤ _ + 1
    omega
  | .dict m => by
    show 2 + costP m ≤ _
    have h := costP_le m
    rw [wNode_dict_len]
    omega
  | .seq l => by
    show 2 + costL l ≤ _
    rw [wNode_seq_len]
    cases l with
    | nil =>
      show 2 + 0 ≤ _
      omega
    | cons v vs =>
      have h1 := costN_le v
      have h2 := costL_le vs
      rw [wItems_first_len]
      show 2 + (1 + costN v + costL vs) ≤ _
      omega

theorem costP_le : ∀ ps : PairList, costP ps ≤ (wPairs 0 0 true ps).length + 1
  | .nil => by
    show 0 ≤ _
    omega
  | .cons k v ps => by
    show 1 + costN v + costP ps ≤ _
    have h1 := costN_le v
    have h2 := costP_le ps
    rw [wPairs_cons_len]
    omega

theorem costL_le :
    ∀ l : NodeList, costL l ≤ (wItems 0 0 true false l).length + 1
  | .nil => by
    show 0 ≤ _
    omega
  | .cons v vs => by
    show 1 + costN v + costL vs ≤ _
    have h1 := costN_le v
    have h2 := costL_le vs
    rw [wItems_rest_len]
    omega

end

/-! ### The `dump` frame property (claim C9).

`dump` runs `obj = deepcopy(obj); uncast_data(obj); w.write(obj)`.  The
`uncast_data` function (from `glyphsLib.casting`, not part of this
tree) mutates its argument in place; `deepcopy` is the Python standard
library.  Both are modelled here over an explicit heap: addresses are
indexes into a list of Python-level values, `copyMany` materializes a
deep copy out of fresh addresses, and the uncast transformation is an
arbitrary heap mutation constrained — as an in-place tree
transformation is — to touch only addresses reachable from its
argument.  The writer reads but never writes the heap, so it is not
part of the mutation model. -/

/-- Modelled from the spec: a Python-level value on the heap — a
scalar, a list of references, or an ordered dict of key/reference
pairs. -/
inductive PyVal : Type where
  | scalar (s : List Char) : PyVal
  | seq (elems : List Nat) : PyVal
  | dict (pairs : List (List Char × Nat)) : PyVal
deriving DecidableEq

/-- The references held by one heap value. -/
def refsOf : PyVal → List Nat
  | .scalar _ => []
  | .seq rs => rs
  | .dict ps => ps.map (fun p => p.2)

/-- Every reference of every heap value is a live address. -/
def heapClosed (h : List PyVal) : Bool :=
  h.all (fun e => (refsOf e).all (fun r => decide (r < h.length)))

/-- Rebuild a `PairList` from parallel key and value lists. -/
def zipPairs : List (List Char) → NodeList → Option PairList
  | [], .nil => some .nil
  | k :: ks, .cons n l => (zipPairs ks l).map (fun t => PairList.cons k n t)
  | _, _ => none

/-- Modelled from the spec: read the trees hanging off a list of heap
addresses.  Fuel decreases on every call, so the definition is
structural and computes; any fuel above the total object-graph size is
enough on an acyclic heap. -/
def readManyF : Nat → List PyVal → List Nat → Option NodeList
  | 0, _, _ => none
  | _ + 1, _, [] => some .nil
  | fuel + 1, h, a :: rs =>
    match h.get? a with
    | some (.scalar s) =>
      (readManyF fuel h rs).map (fun t => NodeList.cons (.scalar s) t)
    | some (.seq cs) =>
      match readManyF fuel h cs, readManyF fuel h rs with
      | some l, some t => some (.cons (.seq l) t)
      | _, _ => none
    | some (.dict ps) =>
      match readManyF fuel h (ps.map (fun p => p.2)),
          readManyF fuel h rs with
      | some l, some t =>
        match zipPairs (ps.map (fun p => p.1)) l with
        | some m => some (.cons (.dict m) t)
        | none => none
      | _, _ => none
    | none => none

/-- Modelled from the spec: `deepcopy` over a list of addresses —
every copied object is a fresh allocation at the end of the heap, and
its references point only at fresh allocations.  Returns the extended
heap and the addresses of the copies. -/
def copyMany : Nat → List PyVal → List Nat → Option (List PyVal × List Nat)
  | 0, _, _ => none
  | _ + 1, h, [] => some (h, [])
  | fuel + 1, h, a :: rs =>
    match h.get? a with
    | some (.scalar s) =>
      match copyMany fuel (h ++ [PyVal.scalar s]) rs with
      | some (h2, as) => some (h2, h.length :: as)
      | none => none
    | some (.seq cs) =>
      match copyMany fuel h cs with
      | some (h1, cs2) =>
        match copyMany fuel (h1 ++ [PyVal.seq cs2]) rs with
        | some (h2, as) => some (h2, h1.length :: as)
        | none => none
      | none => none
    | some (.dict ps) =>
      match copyMany fuel h (ps.map (fun p => p.2)) with
      | some (h1, vs2) =>
        match copyMany fuel
            (h1 ++ [PyVal.dict ((ps.map (fun p => p.1)).zip vs2)]) rs with
        | some (h2, as) => some (h2, h1.length :: as)
        | none => none
      | none => none
    | none => none

/-- Heap reachability by following references. -/
inductive Reach (h : List PyVal) : Nat → Nat → Prop where
  | refl (a : Nat) : Reach h a a
  | step (a : Nat) (e : PyVal) (r b : Nat) : h.get? a = some e →
      r ∈ refsOf e → Reach h r b → Reach h a b

/-- Every address at or above the watermark `N` references only
addresses at or above `N`. -/
def freshAbove (N : Nat) (h : List PyVal) : Prop :=
  ∀ a, N ≤ a → ∀ e, h.get? a = some e → ∀ r ∈ refsOf e, N ≤ r

/-- Modelled from the spec: `dump` — deep-copy the root, then run the
in-place uncast transformation `u` on the copy; the returned heap is
the caller-visible state after the call. -/
def dumpHeap (u : List PyVal → Nat → List PyVal) (fuel : Nat)
    (h : List PyVal) (a0 : Nat) : List PyVal :=
  match copyMany fuel h [a0] with
  | some (h1, a1 :: _) => u h1 a1
  | _ => h

theorem reach_above {N : Nat} {h : List PyVal} (hf : freshAbove N h)
    {a b : Nat} (hr : Reach h a b) : N ≤ a → N ≤ b := by
  induction hr with
  | refl a => exact id
  | step a e r b hget hmem _ ih =>
    intro ha
    exact ih (hf a ha e hget r hmem)

theorem freshAbove_self (h : List PyVal) : freshAbove h.length h := by
  intro a ha e hget
  rw [List.get?_eq_none.mpr ha] at hget
  cases hget

theorem freshAbove_append {N : Nat} {h : List PyVal} {e : PyVal}
    (hf : freshAbove N h) (he : ∀ r ∈ refsOf e, N ≤ r) :
    freshAbove N (h ++ [e]) := by
  intro a ha e' hget r hr
  rcases Nat.lt_or_ge a h.length with hlt | hge
  · rw [List.get?_append hlt] at hget
    exact hf a ha e' hget r hr
  · rw [List.get?_append_right hge] at hget
    rcases Nat.lt_or_ge (a - h.length) 1 with h1 | h1
    · have h0 : a - h.length = 0 := by omega
      rw [h0] at hget
      injection hget with hee
      rw [hee] at he
      exact he r hr
    · rw [List.get?_eq_none.mpr (by simp; omega)] at hget
      cases hget

theorem heapClosed_spec {h : List PyVal} (hc : heapClosed h = true)
    {a : Nat} {e : PyVal} (hget : h.get? a = some e) :
    ∀ r ∈ refsOf e, r < h.length := by
  have hm : e ∈ h := List.get?_mem hget
  have hall := List.all_eq_true.mp hc e hm
  intro r hr
  exact of_decide_eq_true (List.all_eq_true.mp hall r hr)

/-- The copy extends the heap: old addresses keep their contents, the
fresh region references only itself, and every returned copy address is
fresh. -/
theorem copyMany_spec {N : Nat} :
    ∀ (fuel : Nat) (h : List PyVal) (roots : List Nat)
      (h' : List PyVal) (as : List Nat), N ≤ h.length → freshAbove N h →
      copyMany fuel h roots = some (h', as) →
      h.length ≤ h'.length ∧ (∀ b, b < h.length → h'.get? b = h.get? b) ∧
        freshAbove N h' ∧ (∀ a ∈ as, N ≤ a)
  | 0, h, roots, h', as, _, _, heq => by cases heq
  | fuel + 1, h, [], h', as, hN, hf, heq => by
    injection heq with heq
    injection heq with h1 h2
    subst h1
    subst h2
    exact ⟨Nat.le_refl _, fun b _ => rfl, hf, by intro a ha; cases ha⟩
  | fuel + 1, h, a :: rs, h', as, hN, hf, heq => by
    unfold copyMany at heq
    split at heq
    · -- scalar entry
      rename_i s hget
      split at heq
      · rename_i h2 as2 hrec
        injection heq with heq
        injection heq with he1 he2
        subst he1
        subst he2
        have hfb : freshAbove N (h ++ [PyVal.scalar s]) :=
          freshAbove_append hf (by intro r hr; cases hr)
        obtain ⟨hl, hag, hfr, has⟩ := copyMany_spec fuel
          (h ++ [PyVal.scalar s]) rs h2 as2
          (by simp; omega) hfb hrec
        refine ⟨by simp at hl; omega, ?_, hfr, ?_⟩
        · intro b hb
          rw [hag b (by simp; omega), List.get?_append hb]
        · intro x hx
          rcases List.mem_cons.mp hx with hx1 | hx1
          · omega
          · exact has x hx1
      · cases heq
    · -- list entry
      rename_i cs hget
      split at heq
      · rename_i h1 cs2 hrec1
        obtain ⟨hl1, hag1, hfr1, has1⟩ :=
          copyMany_spec fuel h cs h1 cs2 hN hf hrec1
        split at heq
        · rename_i h2 as2 hrec2
          injection heq with heq
          injection heq with he1 he2
          subst he1
          subst he2
          have hfb : freshAbove N (h1 ++ [PyVal.seq cs2]) :=
            freshAbove_append hfr1
              (by intro r hr; exact has1 r hr)
          obtain ⟨hl2, hag2, hfr2, has2⟩ := copyMany_spec fuel
            (h1 ++ [PyVal.seq cs2]) rs h2 as2 (by simp; omega) hfb hrec2
          refine ⟨by simp at hl2; omega, ?_, hfr2, ?_⟩
          · intro b hb
            rw [hag2 b (by simp; omega), List.get?_append (by omega),
              hag1 b hb]
          · intro x hx
            rcases List.mem_cons.mp hx with hx1 | hx1
            · omega
            · exact has2 x hx1
        · cases heq
      · cases heq
    · -- dict entry
      rename_i ps hget
      split at heq
      · rename_i h1 vs2 hrec1
        obtain ⟨hl1, hag1, hfr1, has1⟩ :=
          copyMany_spec fuel h (ps.map (fun p => p.2)) h1 vs2 hN hf hrec1
        split at heq
        · rename_i h2 as2 hrec2
          injection heq with heq
          injection heq with he1 he2
          subst he1
          subst he2
          have hzip : ∀ r ∈ refsOf
              (PyVal.dict ((ps.map (fun p => p.1)).zip vs2)), N ≤ r := by
            intro r hr
            have hr' : r ∈ ((ps.map (fun p => p.1)).zip vs2).map
                (fun p => p.2) := hr
            obtain ⟨q, hq, hqr⟩ := List.mem_map.mp hr'
            have := (List.mem_zip hq).2
            rw [hqr] at this
            exact has1 r this
          have hfb : freshAbove N
              (h1 ++ [PyVal.dict ((ps.map (fun p => p.1)).zip vs2)]) :=
            freshAbove_append hfr1 hzip
          obtain ⟨hl2, hag2, hfr2, has2⟩ := copyMany_spec fuel
            (h1 ++ [PyVal.dict ((ps.map (fun p => p.1)).zip vs2)]) rs h2
            as2 (by simp; omega) hfb hrec2
          refine ⟨by simp at hl2; omega, ?_, hfr2, ?_⟩
          · intro b hb
            rw [hag2 b (by simp; omega), List.get?_append (by omega),
              hag1 b hb]
          · intro x hx
            rcases List.mem_cons.mp hx with hx1 | hx1
            · omega
            · exact has2 x hx1
        · cases heq
      · cases heq
    · cases heq

/-! One-step equations for `readManyF` at a known head entry. -/

theorem readManyF_cons_none (fuel : Nat) (h : List PyVal) (a : Nat)
    (rs : List Nat) (hget : h.get? a = none) :
    readManyF (fuel + 1) h (a :: rs) = none := by
  conv_lhs => unfold readManyF
  rw [hget]

theorem readManyF_cons_scalar (fuel : Nat) (h : List PyVal) (a : Nat)
    (rs : List Nat) (s : List Char)
    (hget : h.get? a = some (PyVal.scalar s)) :
    readManyF (fuel + 1) h (a :: rs) =
      (readManyF fuel h rs).map (fun t => NodeList.cons (.scalar s) t) := by
  conv_lhs => unfold readManyF
  rw [hget]

theorem readManyF_cons_seq (fuel : Nat) (h : List PyVal) (a : Nat)
    (rs : List Nat) (cs : List Nat)
    (hget : h.get? a = some (PyVal.seq cs)) :
    readManyF (fuel + 1) h (a :: rs) =
      match readManyF fuel h cs, readManyF fuel h rs with
      | some l, some t => some (.cons (.seq l) t)
      | _, _ => none := by
  conv_lhs => unfold readManyF
  rw [hget]

theorem readManyF_cons_dict (fuel : Nat) (h : List PyVal) (a : Nat)
    (rs : List Nat) (ps : List (List Char × Nat))
    (hget : h.get? a = some (PyVal.dict ps)) :
    readManyF (fuel + 1) h (a :: rs) =
      match readManyF fuel h (ps.map (fun p => p.2)),
          readManyF fuel h rs with
      | some l, some t =>
        match zipPairs (ps.map (fun p => p.1)) l with
        | some m => some (.cons (.dict m) t)
        | none => none
      | _, _ => none := by
  conv_lhs => unfold readManyF
  rw [hget]

/-- Reading through the original root ignores every address outside the
original heap, so any mutation confined to fresh addresses is
invisible. -/
theorem readManyF_agree :
    ∀ (fuel : Nat) (h h2 : List PyVal) (roots : List Nat),
      heapClosed h = true →
      (∀ b, b < h.length → h2.get? b = h.get? b) →
      (∀ a ∈ roots, a < h.length) →
      readManyF fuel h2 roots = readManyF fuel h roots
  | 0, _, _, _, _, _, _ => rfl
  | fuel + 1, h, h2, [], _, _, _ => rfl
  | fuel + 1, h, h2, a :: rs, hc, hag, hroots => by
    have ha : a < h.length := hroots a (by simp)
    have hrs : ∀ x ∈ rs, x < h.length :=
      fun x hx => hroots x (by simp [hx])
    cases hget : h.get? a with
    | none =>
      have hget2 : h2.get? a = none := by rw [hag a ha, hget]
      rw [readManyF_cons_none fuel h2 a rs hget2,
        readManyF_cons_none fuel h a rs hget]
    | some e =>
      have hget2 : h2.get? a = some e := by rw [hag a ha, hget]
      have hrefs := heapClosed_spec hc hget
      cases e with
      | scalar s =>
        rw [readManyF_cons_scalar fuel h2 a rs s hget2,
          readManyF_cons_scalar fuel h a rs s hget,
          readManyF_agree fuel h h2 rs hc hag hrs]
      | seq cs =>
        rw [readManyF_cons_seq fuel h2 a rs cs hget2,
          readManyF_cons_seq fuel h a rs cs hget,
          readManyF_agree fuel h h2 rs hc hag hrs,
          readManyF_agree fuel h h2 cs hc hag
            (by intro x hx; exact hrefs x hx)]
      | dict ps =>
        rw [readManyF_cons_dict fuel h2 a rs ps hget2,
          readManyF_cons_dict fuel h a rs ps hget,
          readManyF_agree fuel h h2 rs hc hag hrs,
          readManyF_agree fuel h h2 (ps.map (fun p => p.2)) hc hag
            (by intro x hx; exact hrefs x hx)]

/-! ### Claims -/

/-- C4: when a dict source text assigns one key several times, the
parsed mapping holds it once, at its first position, with the last
value: `odInsert` (the OrderedDict assignment used by `_parse_dict`)
keeps an existing key's position, always stores the new value, appends
genuinely new keys — and the concrete document
`{ a = 1; b = 2; a = 3; }` parses to the mapping `[a ↦ 3, b ↦ 2]` with
key order `[a, b]`. -/
theorem claim_C4_duplicate_keys :
    (∀ (a : PairList) (k : List Char) (v : Node),
      keyList (odInsert a k v) =
        if k ∈ keyList a then keyList a else keyList a ++ [k]) ∧
    (∀ (a : PairList) (k : List Char) (v : Node),
      lookupKey (odInsert a k v) k = some v) ∧
    (∀ (a : PairList) (k : List Char) (v : Node) (k' : List Char),
      k' ≠ k → lookupKey (odInsert a k v) k' = lookupKey a k') ∧
    parse dupKeyText =
      .ok (.dict (.cons ['a'] (.scalar ['3'])
        (.cons ['b'] (.scalar ['2']) .nil))) :=
  ⟨fun a k v => keyList_odInsert k v a,
   fun a k v => lookupKey_odInsert_self k v a,
   fun a k v k' h => lookupKey_odInsert_other k v k' h a,
   by decide⟩

/-- Witness for C4 at a concrete input: inserting `a ↦ 3` into
`[b ↦ 2]` leaves `b`'s binding alone. -/
theorem claim_C4_duplicate_keys_witness :
    lookupKey
      (odInsert (.cons ['b'] (.scalar ['2']) .nil) ['a'] (.scalar ['3']))
      ['b'] = some (.scalar ['2']) := by
  have h := claim_C4_duplicate_keys
  rw [h.2.2.1 (.cons ['b'] (.scalar ['2']) .nil) ['a'] (.scalar ['3']) ['b']
    (by decide)]
  decide

/-- C6: `{ a = 1 }` (no `;` before `}`) fails with the missing-delimiter
error, at offset 7 (after the value `1`); `(1, 2,)` (trailing comma)
fails with the unexpected-content error at offset 6, the element
position right after the comma. -/
theorem claim_C6_delimiter_strictness :
    parse missingSemiText = .error (.missingDictDelimiter 7) ∧
    parse trailingCommaText = .error (.unexpectedContent 6) := by
  decide

/-- C8: with default writer options, an empty mapping serializes to
exactly `{`, newline, `}` and the single trailing newline of `write`,
and an empty sequence to `(`, newline, `)` and that newline. -/
theorem claim_C8_empty_containers :
    serialize (.dict .nil) = "\x7b\n\x7d\n".toList ∧
    serialize (.seq .nil) = "(\n)\n".toList := by
  decide

/-- C10: an input that is empty or all whitespace fails with the
unexpected-content error at offset 0 — there is no representation of an
absent root value. -/
theorem claim_C10_blank_input (t : List Char)
    (h : ∀ c ∈ t, pySpace c = true) :
    parse t = .error (.unexpectedContent 0) := by
  have htw : t.takeWhile pySpace = t := List.takeWhile_eq_self_iff.mpr h
  have hdrop : t.drop (wsCount t) = [] := by
    rw [wsCount, htw, List.drop_length]
  have hlit : ∀ c, litAfterWs c t = none := by
    intro c
    unfold litAfterWs
    rw [hdrop]
    rfl
  have hmv : matchValueTok t = none := by
    unfold matchValueTok
    rw [hdrop]
    rfl
  have hfuel : 3 * (t.length + 1) = (3 * t.length + 2) + 1 := by omega
  unfold parse parseValue
  rw [hfuel]
  simp only [parseStep, List.drop_zero, hlit, hmv]

/-- Witness for C10 at the concrete all-whitespace input. -/
theorem claim_C10_blank_input_witness :
    parse (" \n\t ".toList) = .error (.unexpectedContent 0) :=
  claim_C10_blank_input (" \n\t ".toList) (by decide)

/-- C7: once the root value has been read (ending at offset `i`), the
parse fails with the unexpected-trailing-content error exactly when some
remaining character is not whitespace, and succeeds with the root value
when only whitespace remains. -/
theorem claim_C7_trailing_content (t : List Char) (v : Node) (i : Nat)
    (h : parseValue (3 * (t.length + 1)) t 0 = .ok (v, i)) :
    ((∃ c ∈ t.drop i, pySpace c = false) ↔
      parse t = .error (.unexpectedTrailingContent i)) ∧
    ((∀ c ∈ t.drop i, pySpace c = true) → parse t = .ok v) := by
  have hp : parse t =
      if pyStrip (t.drop i) = [] then .ok v
      else .error (.unexpectedTrailingContent i) := by
    unfold parse
    rw [h]
  refine ⟨⟨?_, ?_⟩, ?_⟩
  · rintro ⟨c, hc, hcf⟩
    have hnn : ¬ pyStrip (t.drop i) = [] := by
      rw [pyStrip_eq_nil_iff]
      intro hall
      rw [hall c hc] at hcf
      cases hcf
    rw [hp, if_neg hnn]
  · intro he
    by_contra hne
    push_neg at hne
    simp only [Bool.not_eq_false] at hne
    rw [hp, if_pos ((pyStrip_eq_nil_iff _).mpr hne)] at he
    exact Except.noConfusion he
  · intro hall
    rw [hp, if_pos ((pyStrip_eq_nil_iff _).mpr hall)]

/-- Witness for C7 at a concrete input: a root scalar followed only by
whitespace parses successfully. -/
theorem claim_C7_trailing_content_witness :
    parse ("a  ".toList) = .ok (.scalar ['a']) := by
  have h := claim_C7_trailing_content ("a  ".toList) (.scalar ['a']) 1 (by decide)
  exact h.2 (by decide)

/-- C1 as stated is refuted by two scalar string values: the writer
never escapes a backslash, so the four-character string `\000`
serializes to a quoted literal that decodes back to the NUL character;
and a code point above U+FFFF is written as `\U` followed by five hex
digits, of which the decoder consumes exactly four. -/
theorem claim_C1_roundtrip_counterexample :
    parse (serialize (Node.scalar ['\\', '0', '0', '0'])) =
      .ok (.scalar [Char.ofNat 0]) ∧
    Node.scalar [Char.ofNat 0] ≠ Node.scalar ['\\', '0', '0', '0'] ∧
    parse (serialize (Node.scalar [Char.ofNat 0x10000])) =
      .ok (.scalar [Char.ofNat 0x1000, '0']) ∧
    Node.scalar [Char.ofNat 0x1000, '0'] ≠ Node.scalar [Char.ofNat 0x10000] := by
  refine ⟨by decide, by decide, by decide, by decide⟩

/-- C2 as stated is refuted by the same two strings, already at the
codec level. -/
theorem claim_C2_escape_counterexample :
    unescape_text (escape_text ['\\', '0', '0', '0']) =
      some [Char.ofNat 0] ∧
    [Char.ofNat 0] ≠ ['\\', '0', '0', '0'] ∧
    unescape_text (escape_text [Char.ofNat 0x10000]) =
      some [Char.ofNat 0x1000, '0'] ∧
    [Char.ofNat 0x1000, '0'] ≠ [Char.ofNat 0x10000] := by
  refine ⟨by decide, by decide, by decide, by decide⟩

/-- C3 as stated is refuted by the two-character string `-a`: it
matches the claim's pattern (optional leading `-`, then the identifier
`a`), yet `escape_text` quotes it — the code allows a leading `-` only
before numbers. -/
theorem claim_C3_quoting_counterexample :
    specSymC3 (escData ['-', 'a']) = true ∧
    escape_text ['-', 'a'] = ['"', '-', 'a', '"'] ∧
    escape_text ['-', 'a'] ≠ escData ['-', 'a'] := by
  refine ⟨by decide, by decide, by decide⟩

/-- C2 amended: for every string without a backslash character and
without code points above U+FFFF — control characters, TAB,
DEL-adjacent characters and embedded double quotes included — decoding
the encoded form reproduces the string exactly. -/
theorem claim_C2_escape_roundtrip (s : List Char) (hg : goodStr s = true) :
    unescape_text (escape_text s) = some s :=
  unescape_escape_text s hg

/-- Witness for C2 at a concrete input holding a letter, a control
character and a double quote. -/
theorem claim_C2_escape_roundtrip_witness :
    unescape_text (escape_text ['a', Char.ofNat 1, '"']) =
      some ['a', Char.ofNat 1, '"'] :=
  claim_C2_escape_roundtrip ['a', Char.ofNat 1, '"'] (by decide)

/-- C5 amended: decoding recognizes exactly the two escape forms — the
octal form (backslash, `0`, two octal digits, values 0–63) and the
unicode form (`\U` plus exactly four hex digits) — and passes every
other backslash through unchanged, never failing; the quote-stripping
and backslash-quote reduction of a quote-delimited value happen before
this escape decode runs. -/
theorem claim_C5_decode_forms :
    (∀ (o1 o2 : Char) (t : List Char), isOctC o1 = true → isOctC o2 = true →
      unescSub ('\\' :: '0' :: o1 :: o2 :: t) =
        Char.ofNat (octEscVal o1 o2) :: unescSub t) ∧
    (∀ (h1 h2 h3 h4 : Char) (t : List Char),
      isHexC h1 = true → isHexC h2 = true → isHexC h3 = true →
      isHexC h4 = true →
      unescSub ('\\' :: 'U' :: h1 :: h2 :: h3 :: h4 :: t) =
        Char.ofNat (hexEscVal h1 h2 h3 h4) :: unescSub t) ∧
    (∀ t : List Char,
      (∀ o1 o2 t2, t = '0' :: o1 :: o2 :: t2 →
        ¬ (isOctC o1 = true ∧ isOctC o2 = true)) →
      (∀ h1 h2 h3 h4 t2, t = 'U' :: h1 :: h2 :: h3 :: h4 :: t2 →
        ¬ (isHexC h1 = true ∧ isHexC h2 = true ∧ isHexC h3 = true ∧
          isHexC h4 = true)) →
      unescSub ('\\' :: t) = '\\' :: unescSub t) ∧
    (∀ (c : Char) (t : List Char), ¬ c = '"' →
      unescape_text (c :: t) = some (unescSub (c :: t))) ∧
    (∀ b : List Char, unescape_text ('"' :: (b ++ ['"'])) =
      some (unescSub (replaceQ b))) ∧
    (∀ l : List Char, '\\' ∉ l → unescSub l = l) := by
  refine ⟨unescSub_oct, unescSub_hex, unescSub_backslash, ?_, ?_,
    unescSub_no_backslash⟩
  · intro c t hc
    simp [unescape_text, hc]
  · intro b
    have hlast : ('"' :: (b ++ ['"'])).getLast? = some '"' := by
      rw [show ('"' :: (b ++ ['"'])) = ('"' :: b) ++ ['"'] by simp,
        List.getLast?_concat]
    simp only [unescape_text, if_pos rfl, hlast, List.dropLast_concat]
    rfl

/-- Witness for C5 at concrete inputs: the octal escape for `!` decodes,
and a lone unknown escape `\q` passes through. -/
theorem claim_C5_decode_forms_witness :
    unescSub ['\\', '0', '4', '1', 'x'] = [Char.ofNat 33, 'x'] ∧
    unescSub ['\\', 'q'] = ['\\', 'q'] := by
  have h := claim_C5_decode_forms
  constructor
  · rw [h.1 '4' '1' ['x'] (by decide) (by decide)]
    decide
  · rw [h.2.2.1 ['q'] (by intro o1 o2 t2 hq; simp at hq)
      (by intro h1 h2 h3 h4 t2 hq; simp at hq)]
    decide

/-- C3 amended: a scalar is left unquoted iff, after escaping, it
matches an optional leading `-` followed by a decimal string (digits
with at most one period and at least one digit), or — without a leading
`-` — an identifier whose first character is a letter, digit,
underscore, slash, or period and whose remaining characters are
letters, digits, underscores, or periods; every other value, the empty
string included, is wrapped in double quotes. -/
theorem claim_C3_quoting (s : List Char) :
    escape_text s =
      if amendSym (escData s) = true then escData s
      else '"' :: (escData s ++ ['"']) := by
  unfold escape_text
  rw [symMatch_eq_amendSym]

/-- C5 as stated is refuted by the quoted literal `"\""`: its backslash
sequence `\"` is neither of the two decode escape forms, yet it is not
passed through — the quote-stripping pass reduces it to a bare quote
before the escape decode runs. -/
theorem claim_C5_decode_counterexample :
    unescape_text ['"', '\\', '"', '"'] = some ['"'] ∧
    '\\' ∉ (['"'] : List Char) := by
  refine ⟨by decide, by decide⟩

/-- C1 amended: for every generic tree whose scalar strings and mapping
keys contain no backslash and no code point above `U+FFFF`, and whose
mappings have pairwise distinct keys, parsing the default-option
serialization returns exactly the tree — keys in mapping order,
elements in sequence order. -/
theorem claim_C1_roundtrip (T : Node) (hg : goodNode T = true) :
    parse (serialize T) = .ok T := by
  have hlen : (serialize T).length = (wNode 0 0 true T).length + 1 := by
    show (wNode 0 0 true T ++ ['\n']).length = _
    simp
  have hdrop0 : (serialize T).drop 0 =
      ([] : List Char) ++ wNode 0 0 true T ++ ['\n'] := rfl
  have hfuel : costN T ≤ 3 * ((serialize T).length + 1) := by
    have h1 := costN_le T
    rw [hlen]
    omega
  have hv := rtVal T (serialize T) (3 * ((serialize T).length + 1)) 0 []
    ['\n'] hg (by intro x hx; cases hx) hdrop0 (Or.inr (Or.inr rfl)) hfuel
  rw [show (([] : List Char)).length = 0 from rfl] at hv
  have hdroplast : (serialize T).drop (0 + 0 + (wNode 0 0 true T).length) =
      ['\n'] := by
    have h := drop_shift (t := serialize T) (i := 0)
      (X := ([] : List Char) ++ wNode 0 0 true T) (Y := ['\n']) hdrop0
    rw [show 0 + ((([] : List Char) ++ wNode 0 0 true T)).length =
        0 + 0 + (wNode 0 0 true T).length from by simp] at h
    exact h
  have hcond : pyStrip ((serialize T).drop
      (0 + 0 + (wNode 0 0 true T).length)) = [] := by
    rw [hdroplast]
    decide
  unfold parse parseValue
  rw [hv]
  show (if pyStrip ((serialize T).drop
        (0 + 0 + (wNode 0 0 true T).length)) = []
      then Except.ok T
      else Except.error (PErr.unexpectedTrailingContent
        (0 + 0 + (wNode 0 0 true T).length))) = Except.ok T
  rw [if_pos hcond]

/-- C9 (frame property of `dump`, modelled from the spec: the
`uncast_data` source is not part of this tree): for every in-place
uncast transformation `u` that mutates only addresses reachable from
its argument, and every closed heap with root `a0`, the tree read from
the caller's root is unchanged after `dump` — the deep copy hands `u` a
root whose reachable addresses are all fresh. -/
theorem claim_C9_dump_preserves_caller_tree
    (u : List PyVal → Nat → List PyVal)
    (hu : ∀ (hh : List PyVal) (r b : Nat), ¬ Reach hh r b →
      (u hh r).get? b = hh.get? b)
    (fuel fuel2 : Nat) (h : List PyVal) (a0 : Nat)
    (hcl : heapClosed h = true) (ha0 : a0 < h.length) :
    readManyF fuel2 (dumpHeap u fuel h a0) [a0] =
      readManyF fuel2 h [a0] := by
  unfold dumpHeap
  cases hcp : copyMany fuel h [a0] with
  | none => rfl
  | some p =>
    obtain ⟨h1, as⟩ := p
    cases as with
    | nil => rfl
    | cons a1 as' =>
      obtain ⟨hlen, hagree, hfresh, hasN⟩ :=
        copyMany_spec (N := h.length) fuel h [a0] h1 (a1 :: as')
          (Nat.le_refl _) (freshAbove_self h) hcp
      have ha1 : h.length ≤ a1 := hasN a1 (by simp)
      have hagree2 : ∀ b, b < h.length → (u h1 a1).get? b = h.get? b := by
        intro b hb
        rw [hu h1 a1 b (fun hr => by
          have := reach_above hfresh hr ha1
          omega), hagree b hb]
      exact readManyF_agree fuel2 h (u h1 a1) [a0] hcl hagree2
        (by intro x hx; rw [List.mem_singleton] at hx; subst hx; exact ha0)

/-- Witness for C9 at a concrete heap — a list holding a scalar — and a
concrete uncast that overwrites its root in place. -/
theorem claim_C9_dump_preserves_caller_tree_witness :
    heapClosed [PyVal.scalar ['a'], PyVal.seq [0]] = true ∧
    1 < ([PyVal.scalar ['a'], PyVal.seq [0]] : List PyVal).length ∧
    readManyF 4 (dumpHeap (fun hh r => hh.set r (PyVal.scalar ['z'])) 4
      [PyVal.scalar ['a'], PyVal.seq [0]] 1) [1] =
      readManyF 4 [PyVal.scalar ['a'], PyVal.seq [0]] [1] :=
  ⟨by decide, by decide,
    claim_C9_dump_preserves_caller_tree
      (fun hh r => hh.set r (PyVal.scalar ['z']))
      (fun hh r b hnr => by
        have hbr : ¬ r = b := fun he => hnr (he ▸ Reach.refl r)
        exact List.get?_set_ne _ _ hbr)
      4 4 [PyVal.scalar ['a'], PyVal.seq [0]] 1 (by decide) (by decide)⟩

/-- Witness for amended C1 at a concrete nested tree: a dict holding a
scalar, a nested list and a nested dict. -/
theorem claim_C1_roundtrip_witness :
    goodNode (Node.dict (.cons ['a'] (.scalar ['1'])
      (.cons ['b'] (.seq (.cons (.scalar ['x', ' ', 'y']) .nil))
        (.cons ['c'] (.dict .nil) .nil)))) = true ∧
    parse (serialize (Node.dict (.cons ['a'] (.scalar ['1'])
      (.cons ['b'] (.seq (.cons (.scalar ['x', ' ', 'y']) .nil))
        (.cons ['c'] (.dict .nil) .nil))))) =
      .ok (Node.dict (.cons ['a'] (.scalar ['1'])
        (.cons ['b'] (.seq (.cons (.scalar ['x', ' ', 'y']) .nil))
          (.cons ['c'] (.dict .nil) .nil)))) :=
  ⟨by decide, claim_C1_roundtrip _ (by decide)⟩

end GlyphsLib
